import Mathlib

/-!
Shallow embedding of the TGFF parser of `src/lib.rs`.

The parser walks a character cursor with one-step lookahead, keeping a line
counter, and builds a `Content` accumulator.  The embedding keeps the state
explicit: a `PState` holds the remaining input characters together with the
current line, and every operation of the source becomes a function from
`PState` to a value paired with the successor state (wrapped in
`Except Error` for the fallible ones).

Machine reals (`f64`) are modelled as exact rationals; the arithmetic of the
numeral-conversion routine is written with `mkRat`-based operations so that
concrete runs reduce inside the kernel.

The grammar loops of the source are embedded with an explicit fuel that the
wrappers instantiate with `input length + 1` at each loop entry; a `diverge`
outcome records fuel exhaustion.  All loops except the table row loop consume
at least one character per iteration, so for them the chosen fuel always
suffices (proved below); the row loop of `process_table` genuinely fails to
advance when a table declares zero columns, and `diverge` is then the faithful
rendering of the source's infinite loop.
-/

set_option maxHeartbeats 1000000

set_option maxRecDepth 8000

namespace TGFF

/-- Rational product, written with `mkRat` so that it reduces definitionally
(the `Rat.mul` of the library is irreducible); models `f64` multiplication. -/
def qmul (a b : ℚ) : ℚ := mkRat (a.num * b.num) (a.den * b.den)

/-- Rational sum via `mkRat`; models `f64` addition. -/
def qadd (a b : ℚ) : ℚ := mkRat (a.num * b.den + b.num * a.den) (a.den * b.den)

/-- Rational difference via `mkRat`; models `f64` subtraction. -/
def qsub (a b : ℚ) : ℚ := mkRat (a.num * b.den - b.num * a.den) (a.den * b.den)

/-- Rational quotient via `mkRat`; models `f64` division (only ever used with
a nonzero divisor by the numeral converter). -/
def qdiv (a b : ℚ) : ℚ :=
  if b.num < 0 then mkRat (-(a.num * b.den)) (a.den * b.num.natAbs)
  else mkRat (a.num * b.den) (a.den * b.num.natAbs)

/-- Iterated product; models the `pow` used for exponent scaling. -/
def qpow (a : ℚ) : Nat → ℚ
  | 0 => mkRat 1 1
  | n + 1 => qmul (qpow a n) a

/-- Decimal digit value of a character (`char::to_digit` with radix 10). -/
def digitVal (c : Char) : Option Nat :=
  if '0' ≤ c ∧ c ≤ '9' then some (c.toNat - '0'.toNat) else none

/-- Digit-accumulation loop shared by the integer conversions: fails on the
first non-digit character. -/
def parseDigits : List Char → Nat → Option Nat
  | [], acc => some acc
  | c :: rest, acc =>
    match digitVal c with
    | some d => parseDigits rest (acc * 10 + d)
    | none => none

/-- Digit-accumulation loop of the `uint` conversion: fails on the first
non-digit character and as soon as the accumulator leaves the 64-bit range
(`uint` overflow). -/
def parseDigitsU64 : List Char → Nat → Option Nat
  | [], acc => some acc
  | c :: rest, acc =>
    match digitVal c with
    | some d =>
      if acc * 10 + d < 2 ^ 64 then parseDigitsU64 rest (acc * 10 + d) else none
    | none => none

/-- Model of `std::num::from_str_radix::<uint>(s, 10)`: an optional leading
`+` (a leading `-` is rejected for the unsigned type) followed by at least one
decimal digit and nothing else; the conversion fails with `none` on `uint`
overflow, so a numeral of value `2 ^ 64` or more is rejected. -/
def fromStrRadixNat (buf : List Char) : Option Nat :=
  match buf with
  | [] => none
  | c :: rest =>
    if c = '-' then none
    else
      let body := if c = '+' then rest else c :: rest
      if body = [] then none else parseDigitsU64 body 0

/-- Model of `from_str_common::<int>` as used for the exponent field: an
optional sign followed by at least one decimal digit and nothing else. -/
def expIntVal (buf : List Char) : Option Int :=
  match buf with
  | [] => none
  | c :: rest =>
    if c = '-' then
      match (if rest = [] then none else parseDigits rest 0) with
      | some n => some (-(n : Int))
      | none => none
    else
      let body := if c = '+' then rest else c :: rest
      if body = [] then none
      else
        match parseDigits body 0 with
        | some n => some ((n : Int))
        | none => none

/-- Fractional-part loop of `strconv::from_str_common`: consumes digits,
decreasing the digit weight tenfold each step; stops (reporting `true`) at an
exponent trigger character, and fails on any other non-digit.  Returns the
accumulated value, the count of consumed characters, and the rest of the
buffer. -/
def fracLoop (positive : Bool) : List Char → ℚ → ℚ → Nat → Option (ℚ × Nat × List Char × Bool)
  | [], accum, _, n => some (accum, n, [], false)
  | c :: rest, accum, power, n =>
    match digitVal c with
    | some d =>
      fracLoop positive rest
        (if positive then qadd accum (qmul (mkRat d 1) (qdiv power (mkRat 10 1)))
         else qsub accum (qmul (mkRat d 1) (qdiv power (mkRat 10 1))))
        (qdiv power (mkRat 10 1)) (n + 1)
    | none =>
      if c = 'e' ∨ c = 'E' ∨ c = 'p' ∨ c = 'P' then some (accum, n, c :: rest, true)
      else none

/-- Integer-part loop of `strconv::from_str_common`: consumes digits shifting
the accumulator, hands over to `fracLoop` past a decimal point, stops at an
exponent trigger, and fails on any other non-digit. -/
def intLoop (positive : Bool) : List Char → ℚ → Nat → Option (ℚ × Nat × List Char × Bool)
  | [], accum, n => some (accum, n, [], false)
  | c :: rest, accum, n =>
    match digitVal c with
    | some d =>
      intLoop positive rest
        (if positive then qadd (qmul accum (mkRat 10 1)) (mkRat d 1)
         else qsub (qmul accum (mkRat 10 1)) (mkRat d 1)) (n + 1)
    | none =>
      if c = 'e' ∨ c = 'E' ∨ c = 'p' ∨ c = 'P' then some (accum, n, c :: rest, true)
      else if c = '.' then fracLoop positive rest accum (mkRat 1 1) (n + 1)
      else none

/-- Model of `strconv::from_str_common` with radix 10, sign and fraction
allowed, no specials, decimal exponent (`ExpDec`), `empty_zero = false`:
the converter used by `read_real`.  Floating-point overflow to infinity is not
modelled (values stay exact rationals). -/
def fromStrCommon (buf : List Char) : Option ℚ :=
  match buf with
  | [] => none
  | c0 :: rest0 =>
    let positive : Bool := !(c0 == '-')
    let body := if c0 == '-' || c0 == '+' then rest0 else c0 :: rest0
    match intLoop positive body (mkRat 0 1) 0 with
    | none => none
    | some (accum, n, rest, expFound) =>
      if n = 0 then none
      else if expFound then
        match rest with
        | c :: after =>
          if c = 'e' ∨ c = 'E' then
            match expIntVal after with
            | some e =>
              some (qmul accum
                (if e < 0 then qdiv (mkRat 1 1) (qpow (mkRat 10 1) e.natAbs)
                 else qpow (mkRat 10 1) e.natAbs))
            | none => none
          else none
        | [] => none
      else some accum

/-- Model of Rust `str::split(sep)`: the (possibly empty) fields between
occurrences of the separator, in order. -/
def splitCharAux (sep : Char) : List Char → List Char → List (List Char)
  | [], cur => [cur.reverse]
  | c :: rest, cur =>
    if c = sep then cur.reverse :: splitCharAux sep rest []
    else splitCharAux sep rest (c :: cur)

/-- Split a character list at every occurrence of `sep`. -/
def splitChar (sep : Char) (l : List Char) : List (List Char) := splitCharAux sep l []

/-- Error record of the parser: a line number and a message. -/
structure Error where
  line : Nat
  message : String
  deriving DecidableEq

/-- Decidable equality of fallible results, for evaluating concrete runs. -/
instance exceptDecEq {ε α : Type} [DecidableEq ε] [DecidableEq α] : DecidableEq (Except ε α)
  | .error e1, .error e2 =>
    match decEq e1 e2 with
    | .isTrue h => .isTrue (by rw [h])
    | .isFalse h => .isFalse (fun h2 => h (by cases h2; rfl))
  | .error _, .ok _ => .isFalse (fun h => by cases h)
  | .ok _, .error _ => .isFalse (fun h => by cases h)
  | .ok a1, .ok a2 =>
    match decEq a1 a2 with
    | .isTrue h => .isTrue (by rw [h])
    | .isFalse h => .isFalse (fun h2 => h (by cases h2; rfl))

/-- Modelled from the spec: the `content` module (not among the sources)
declares a `Task` as a numeric id plus a numeric kind code (spec section 3). -/
structure Task where
  id : Nat
  kind : Nat
  deriving DecidableEq

/-- Modelled from the spec: an `Arc` carries its id, source and target task
ids (plain integers), and a kind code (spec section 3). -/
structure Arc where
  id : Nat
  from_ : Nat
  to_ : Nat
  kind : Nat
  deriving DecidableEq

/-- Modelled from the spec: a `Deadline` carries its id, the constrained task
id (`ON`), and the deadline value (`AT`) (spec section 3). -/
structure Deadline where
  id : Nat
  on_ : Nat
  at_ : Nat
  deriving DecidableEq

/-- Modelled from the spec: attribute mappings are hash maps from names to
values; embedded as association lists whose insert replaces the value bound
to an existing key, which is the `HashMap::insert` semantics. -/
def insertAttr {α : Type} : List (String × α) → String → α → List (String × α)
  | [], k, v => [(k, v)]
  | (k', v') :: rest, k, v =>
    if k' = k then (k, v) :: rest else (k', v') :: insertAttr rest k v

/-- Value bound to a key in an attribute mapping. -/
def lookupAttr {α : Type} : List (String × α) → String → Option α
  | [], _ => none
  | (k', v') :: rest, k => if k' = k then some v' else lookupAttr rest k

/-- Number of entries of an attribute mapping bound to a given key. -/
def countKey {α : Type} (m : List (String × α)) (k : String) : Nat :=
  (m.filter (fun p => decide (p.1 = k))).length

/-- Modelled from the spec: a `Graph` is a named, numerically identified
task-graph block with an attribute mapping and ordered task, arc and deadline
sequences (spec section 3). -/
structure Graph where
  name : String
  id : Nat
  attributes : List (String × Nat)
  tasks : List Task
  arcs : List Arc
  deadlines : List Deadline
  deriving DecidableEq

/-- Fresh graph, as `Graph::new(name, id)`. -/
def Graph.new (name : String) (id : Nat) : Graph := ⟨name, id, [], [], [], []⟩

/-- Modelled from the spec: a `Column` is a name plus an ordered sequence of
real values (spec section 3). -/
structure Column where
  name : String
  data : List ℚ
  deriving DecidableEq

/-- Fresh empty column, as `Column::new(name)`. -/
def Column.new (name : String) : Column := ⟨name, []⟩

/-- Modelled from the spec: a `Table` is a named, numerically identified
tabular block with real-valued header attributes and an ordered column
sequence (spec section 3). -/
structure Table where
  name : String
  id : Nat
  attributes : List (String × ℚ)
  columns : List Column
  deriving DecidableEq

/-- Fresh table, as `Table::new(name, id)`. -/
def Table.new (name : String) (id : Nat) : Table := ⟨name, id, [], []⟩

/-- Modelled from the spec: the root `Content` accumulator holds the global
attribute mapping and the graph and table sequences (spec section 3). -/
structure Content where
  attributes : List (String × Nat)
  graphs : List Graph
  tables : List Table
  deriving DecidableEq

/-- Fresh content, as `Content::new()`. -/
def Content.new : Content := ⟨[], [], []⟩

/-- Parser state: the remaining input characters and the current line number
(the cursor and line of the `Parser` struct; the content accumulator is
threaded separately). -/
structure PState where
  input : List Char
  line : Nat
  deriving DecidableEq

/-- Outcome of a grammar routine: success with a value and successor state,
a raised error, or divergence (fuel exhaustion of a non-advancing loop). -/
inductive POutcome (α : Type) where
  | ok : α → PState → POutcome α
  | err : Error → POutcome α
  | diverge : POutcome α
  deriving DecidableEq

/-- Sequencing of grammar outcomes. -/
def obind {α β : Type} : POutcome α → (α → PState → POutcome β) → POutcome β
  | .ok a s, k => k a s
  | .err e, _ => .err e
  | .diverge, _ => .diverge

/-- Sequencing of a fallible lexical step into a grammar outcome. -/
def liftE {α β : Type} : Except Error (α × PState) → (α → PState → POutcome β) → POutcome β
  | .ok (a, s), k => k a s
  | .error e, _ => .err e

/-- Consume one character, bumping the line counter on a newline
(the `Iterator` implementation for `Parser`). -/
def next : PState → Option Char × PState
  | ⟨[], line⟩ => (none, ⟨[], line⟩)
  | ⟨c :: rest, line⟩ => (some c, ⟨rest, if c = '\n' then line + 1 else line⟩)

/-- Loop of `Parser::skip`: consume characters while the acceptance predicate
holds of the run index and character, returning the count consumed. -/
def skipAux (accept : Nat → Char → Bool) : Nat → List Char → Nat → Nat × PState
  | count, [], line => (count, ⟨[], line⟩)
  | count, c :: rest, line =>
    if accept count c then
      skipAux accept (count + 1) rest (if c = '\n' then line + 1 else line)
    else (count, ⟨c :: rest, line⟩)

/-- The `skip` primitive of the parser. -/
def skip (accept : Nat → Char → Bool) (s : PState) : Nat × PState :=
  skipAux accept 0 s.input s.line

/-- Whitespace in the sense of `skip_void`: space, tab or newline. -/
def isVoid (c : Char) : Bool := c == ' ' || c == '\t' || c == '\n'

/-- The `skip_void` primitive: consume a maximal whitespace run. -/
def skip_void (s : PState) : PState := (skip (fun _ c => isVoid c) s).2

/-- The `skip_char` primitive: consume one character, require it to be the
expected one, then skip trailing whitespace. -/
def skip_char (expected : Char) (s : PState) : Except Error (Unit × PState) :=
  match next s with
  | (some c, s') =>
    if c = expected then .ok ((), skip_void s')
    else .error ⟨s'.line, "expected `" ++ String.mk [expected] ++ "`"⟩
  | (none, s') => .error ⟨s'.line, "expected `" ++ String.mk [expected] ++ "`"⟩

/-- The `skip_str` primitive: consume the expected literal position by
position, then skip trailing whitespace. -/
def skip_str (expected : String) (s : PState) : Except Error (Unit × PState) :=
  let r := skip (fun i c => decide (i < expected.length) && (c == expected.toList.getD i ' ')) s
  if r.1 ≠ expected.length then
    .error ⟨r.2.line, "expected `" ++ expected ++ "`"⟩
  else .ok ((), skip_void r.2)

/-- The `skip_comment` primitive: a `#` followed by dashes, at least two
characters in total, then trailing whitespace. -/
def skip_comment (s : PState) : Except Error (Unit × PState) :=
  let r := skip (fun i c => (decide (i = 0) && (c == '#')) || (decide (0 < i) && (c == '-'))) s
  if r.1 < 2 then .error ⟨r.2.line, "expected a comment line"⟩
  else .ok ((), skip_void r.2)

/-- Loop of `Parser::read`: like `skipAux` but accumulating the consumed
characters. -/
def readAux (accept : Nat → Char → Bool) :
    Nat → List Char → Nat → List Char → List Char × Nat × PState
  | count, [], line, acc => (acc, count, ⟨[], line⟩)
  | count, c :: rest, line, acc =>
    if accept count c then
      readAux accept (count + 1) rest (if c = '\n' then line + 1 else line) (acc ++ [c])
    else (acc, count, ⟨c :: rest, line⟩)

/-- The `read` primitive: the maximal accepted run, or `none` when it is
empty. -/
def read (accept : Nat → Char → Bool) (s : PState) : Option String × PState :=
  let r := readAux accept 0 s.input s.line []
  if r.2.1 = 0 then (none, r.2.2) else (some (String.mk r.1), r.2.2)

/-- ASCII letter test used by the token reader. -/
def isAlphaChar (c : Char) : Bool :=
  (decide ('A' ≤ c) && decide (c ≤ 'Z')) || (decide ('a' ≤ c) && decide (c ≤ 'z'))

/-- ASCII digit test used by the readers. -/
def isDigitChar (c : Char) : Bool := decide ('0' ≤ c) && decide (c ≤ '9')

/-- Acceptance predicate of `read_token`: a letter first, then letters,
digits or underscores. -/
def tokenAccept (i : Nat) (c : Char) : Bool :=
  if i = 0 then isAlphaChar c
  else isAlphaChar c || isDigitChar c || c == '_'

/-- The `read_token` reader, with its unconditional trailing `skip_void`. -/
def read_token (s : PState) : Option String × PState :=
  let r := read tokenAccept s
  (r.1, skip_void r.2)

/-- The `read_id` reader: read a token, split it at underscores, and convert
its second field to an unsigned integer. -/
def read_id (s : PState) : Option Nat × PState :=
  match read_token s with
  | (some token, s') =>
    ((match (splitChar '_' token.toList).get? 1 with
      | some field => fromStrRadixNat field
      | none => none), s')
  | (none, s') => (none, s')

/-- The `read_natural` reader: a maximal digit run converted as an unsigned
integer, with its unconditional trailing `skip_void`. -/
def read_natural (s : PState) : Option Nat × PState :=
  let r := read (fun _ c => isDigitChar c) s
  ((match r.1 with
    | some number => fromStrRadixNat number.toList
    | none => none), skip_void r.2)

/-- Acceptance predicate of `read_real`. -/
def realAccept (_ : Nat) (c : Char) : Bool :=
  c == '+' || c == '-' || c == '.' || isDigitChar c || c == 'e' || c == 'E'

/-- The `read_real` reader: a maximal run of numeric characters converted by
`fromStrCommon`, with its unconditional trailing `skip_void`. -/
def read_real (s : PState) : Option ℚ × PState :=
  let r := read realAccept s
  ((match r.1 with
    | some number => fromStrCommon number.toList
    | none => none), skip_void r.2)

/-- The `get_token` wrapper: absence becomes a hard error. -/
def get_token (s : PState) : Except Error (String × PState) :=
  match read_token s with
  | (some token, s') => .ok (token, s')
  | (none, s') => .error ⟨s'.line, "expected a token"⟩

/-- The `get_id` wrapper. -/
def get_id (s : PState) : Except Error (Nat × PState) :=
  match read_id s with
  | (some id, s') => .ok (id, s')
  | (none, s') => .error ⟨s'.line, "expected an id"⟩

/-- The `get_natural` wrapper. -/
def get_natural (s : PState) : Except Error (Nat × PState) :=
  match read_natural s with
  | (some number, s') => .ok (number, s')
  | (none, s') => .error ⟨s'.line, "expected a natural number"⟩

/-- The `get_real` wrapper. -/
def get_real (s : PState) : Except Error (ℚ × PState) :=
  match read_real s with
  | (some number, s') => .ok (number, s')
  | (none, s') => .error ⟨s'.line, "expected a real number"⟩

/-- Body of the graph loop of `process_graph`, fuelled: read tokens and
dispatch on `TASK`, `ARC`, `HARD_DEADLINE`, or an attribute name. -/
def graphLoopF : Nat → Graph → PState → POutcome Graph
  | 0, _, _ => .diverge
  | fuel + 1, g, s =>
    match read_token s with
    | (none, s') => .ok g s'
    | (some token, s') =>
      if token = "TASK" then
        liftE (get_id s') fun id s1 =>
        liftE (skip_str "TYPE" s1) fun _ s2 =>
        liftE (get_natural s2) fun kind s3 =>
        graphLoopF fuel { g with tasks := g.tasks ++ [⟨id, kind⟩] } s3
      else if token = "ARC" then
        liftE (get_id s') fun id s1 =>
        liftE (skip_str "FROM" s1) fun _ s2 =>
        liftE (get_id s2) fun fromId s3 =>
        liftE (skip_str "TO" s3) fun _ s4 =>
        liftE (get_id s4) fun toId s5 =>
        liftE (skip_str "TYPE" s5) fun _ s6 =>
        liftE (get_natural s6) fun kind s7 =>
        graphLoopF fuel { g with arcs := g.arcs ++ [⟨id, fromId, toId, kind⟩] } s7
      else if token = "HARD_DEADLINE" then
        liftE (get_id s') fun id s1 =>
        liftE (skip_str "ON" s1) fun _ s2 =>
        liftE (get_id s2) fun onId s3 =>
        liftE (skip_str "AT" s3) fun _ s4 =>
        liftE (get_natural s4) fun atVal s5 =>
        graphLoopF fuel { g with deadlines := g.deadlines ++ [⟨id, onId, atVal⟩] } s5
      else
        liftE (get_natural s') fun value s1 =>
        graphLoopF fuel { g with attributes := insertAttr g.attributes token value } s1

/-- The `process_graph` routine: run the graph loop on a fresh graph. -/
def process_graph (name : String) (id : Nat) (s : PState) : POutcome Graph :=
  graphLoopF (s.input.length + 1) (Graph.new name id) s

/-- Token-collecting loop of `process_table` (used for the header attribute
names and for the column names), fuelled. -/
def tokenLoopF : Nat → List String → PState → POutcome (List String)
  | 0, _, _ => .diverge
  | fuel + 1, acc, s =>
    match read_token s with
    | (none, s') => .ok acc s'
    | (some token, s') => tokenLoopF fuel (acc ++ [token]) s'

/-- Header-value pass of `process_table`: one required real per header name,
in read order. -/
def headerAttrs : List String → Table → PState → Except Error (Table × PState)
  | [], t, s => .ok (t, s)
  | n :: ns, t, s =>
    match get_real s with
    | .error e => .error e
    | .ok (v, s') => headerAttrs ns { t with attributes := insertAttr t.attributes n v } s'

/-- One row of the table row loop: one required real per declared column, in
column order, each appended to its column's data. -/
def readRow : List Column → PState → Except Error (List Column × PState)
  | [], s => .ok ([], s)
  | col :: cols, s =>
    match get_real s with
    | .error e => .error e
    | .ok (v, s') =>
      match readRow cols s' with
      | .error e => .error e
      | .ok (cols', s'') => .ok ({ col with data := col.data ++ [v] } :: cols', s'')

/-- Row loop of `process_table`, fuelled: while the next character is neither
`\x7d` nor end of input, read one row. -/
def rowLoopF : Nat → List Column → PState → POutcome (List Column)
  | 0, _, _ => .diverge
  | fuel + 1, cols, s =>
    match s.input.head? with
    | some '\x7d' => .ok cols s
    | none => .ok cols s
    | some _ =>
      match readRow cols s with
      | .error e => .err e
      | .ok (cols', s') => rowLoopF fuel cols' s'

/-- The `process_table` routine: leading `#`, header names then their reals,
the comment rule, another `#`, the column names, then the row loop. -/
def process_table (name : String) (id : Nat) (s : PState) : POutcome Table :=
  liftE (skip_char '#' s) fun _ s1 =>
  obind (tokenLoopF (s1.input.length + 1) [] s1) fun names s2 =>
  liftE (headerAttrs names (Table.new name id) s2) fun t s3 =>
  liftE (skip_comment s3) fun _ s4 =>
  liftE (skip_char '#' s4) fun _ s5 =>
  obind (tokenLoopF (s5.input.length + 1) [] s5) fun colNames s6 =>
  obind (rowLoopF (s6.input.length + 1) (colNames.map Column.new) s6) fun cols s7 =>
  .ok { t with columns := cols } s7

/-- Dispatch and body of `process_block` between the braces: a `#` lookahead
selects the table parser, anything else the graph parser; the completed block
is appended to the content. -/
def blockBody (name : String) (id : Nat) (content : Content) (s : PState) : POutcome Content :=
  match s.input.head? with
  | some '#' =>
    obind (process_table name id s) fun t s' =>
    .ok { content with tables := content.tables ++ [t] } s'
  | _ =>
    obind (process_graph name id s) fun g s' =>
    .ok { content with graphs := content.graphs ++ [g] } s'

/-- The `process_block` routine: consume `\x7b`, parse the body, then require
the closing `\x7d`. -/
def process_block (name : String) (id : Nat) (content : Content) (s : PState) :
    POutcome Content :=
  liftE (skip_char '\x7b' s) fun _ s1 =>
  obind (blockBody name id content s1) fun content' s2 =>
  liftE (skip_char '\x7d' s2) fun _ s3 =>
  .ok content' s3

/-- The `process_at` routine: consume `@`, read the name and the number, then
either parse a block or record a global attribute. -/
def process_at (content : Content) (s : PState) : POutcome Content :=
  liftE (skip_char '@' s) fun _ s1 =>
  liftE (get_token s1) fun name s2 =>
  liftE (get_natural s2) fun number s3 =>
  match s3.input.head? with
  | some '\x7b' => process_block name number content s3
  | _ => .ok { content with attributes := insertAttr content.attributes name number } s3

/-- Top-level statement loop of `Parser::process`, fuelled: dispatch on the
next character (`@`, anything else, or end of input). -/
def processF : Nat → Content → PState → POutcome Content
  | 0, _, _ => .diverge
  | fuel + 1, content, s =>
    match s.input.head? with
    | some '@' =>
      obind (process_at content s) fun content' s' => processF fuel content' s'
    | some _ => .err ⟨s.line, "found an unknown statement"⟩
    | none => .ok content s

/-- The `process` entry point on a parser state with a fresh content
accumulator. -/
def process (s : PState) : POutcome Content :=
  processF (s.input.length + 1) Content.new s

/-- Initial parser state for an input text, as `Parser::new`. -/
def mkState (input : String) : PState := ⟨input.toList, 1⟩

/-- Parse an input text from scratch: `Parser::new(input).process()`. -/
def parseDocument (input : String) : POutcome Content := process (mkState input)

/-- First non-whitespace character of a character sequence: the criterion the
spec states for the graph/table dispatch of a block. -/
def firstNonVoid (l : List Char) : Option Char := (l.dropWhile (fun c => isVoid c)).head?

/-- Decimal digit character of a value below ten. -/
def digitChar (d : Nat) : Char := Char.ofNat (48 + d)

/-- Fuelled most-significant-first decimal rendering of a natural number. -/
def natLitAux : Nat → Nat → List Char → List Char
  | 0, _, acc => acc
  | fuel + 1, v, acc =>
    if v < 10 then digitChar v :: acc
    else natLitAux fuel (v / 10) (digitChar (v % 10) :: acc)

/-- Decimal numeral of a natural number, most significant digit first. -/
def natLit (v : Nat) : List Char := natLitAux (v + 1) v []

/-- A string is a valid identifier token of the grammar: a letter first, then
letters, digits or underscores. -/
def validTokenStr (t : String) : Prop :=
  ∃ c cs, t.toList = c :: cs ∧ isAlphaChar c = true ∧
    ∀ c' ∈ cs, (isAlphaChar c' || isDigitChar c' || (c' == '_')) = true

/-- Whitespace equivalence of the spec: two character sequences agree except
that corresponding maximal whitespace runs may be replaced by other nonempty
whitespace runs (replacing a separating run by one space, or inserting extra
blank lines into it, are instances). -/
inductive VE : List Char → List Char → Prop where
  | nil : VE [] []
  | cons {c : Char} {xs ys : List Char} : isVoid c = false → VE xs ys → VE (c :: xs) (c :: ys)
  | run {r1 r2 xs ys : List Char} : r1 ≠ [] → r2 ≠ [] →
      (∀ c ∈ r1, isVoid c = true) → (∀ c ∈ r2, isVoid c = true) →
      VE xs ys → VE (r1 ++ xs) (r2 ++ ys)

/-- Two parser states in lockstep up to whitespace: equivalent remaining
inputs, both positioned at a non-whitespace character or at the end. -/
def Sync (s1 s2 : PState) : Prop :=
  VE s1.input s2.input ∧
    (∀ c, s1.input.head? = some c → isVoid c = false) ∧
    (∀ c, s2.input.head? = some c → isVoid c = false)

/-!  Basic facts about the whitespace classification and the primitives. -/

theorem isVoid_cases {c : Char} (h : isVoid c = true) : c = ' ' ∨ c = '\t' ∨ c = '\n' := by
  simp only [isVoid, Bool.or_eq_true, beq_iff_eq] at h
  tauto

theorem digit_not_void {c : Char} (h : isDigitChar c = true) : isVoid c = false := by
  cases hv : isVoid c with
  | false => rfl
  | true =>
    rcases isVoid_cases hv with h' | h' | h' <;> subst h' <;> exact absurd h (by decide)

theorem alpha_not_void {c : Char} (h : isAlphaChar c = true) : isVoid c = false := by
  cases hv : isVoid c with
  | false => rfl
  | true =>
    rcases isVoid_cases hv with h' | h' | h' <;> subst h' <;> exact absurd h (by decide)

theorem tokenAccept_not_void {i : Nat} {c : Char} (h : tokenAccept i c = true) :
    isVoid c = false := by
  cases hv : isVoid c with
  | false => rfl
  | true =>
    rcases isVoid_cases hv with h' | h' | h' <;> subst h' <;>
      revert h <;> unfold tokenAccept <;> split <;> decide

theorem realAccept_not_void {i : Nat} {c : Char} (h : realAccept i c = true) :
    isVoid c = false := by
  have h2 : realAccept 0 c = true := h
  cases hv : isVoid c with
  | false => rfl
  | true =>
    rcases isVoid_cases hv with h' | h' | h' <;> subst h' <;> exact absurd h2 (by decide)

theorem skipAux_void_input (l : List Char) :
    ∀ n ln, (skipAux (fun _ c => isVoid c) n l ln).2.input = l.dropWhile (fun c => isVoid c) := by
  induction l with
  | nil => intro n ln; rfl
  | cons c rest ih =>
    intro n ln
    by_cases hc : isVoid c = true
    · simp [skipAux, hc, List.dropWhile, ih]
    · simp at hc
      simp [skipAux, hc, List.dropWhile]

theorem skip_void_input (s : PState) :
    (skip_void s).input = s.input.dropWhile (fun c => isVoid c) := by
  unfold skip_void skip
  exact skipAux_void_input s.input 0 s.line

theorem skip_void_of_headNonVoid {s : PState}
    (h : ∀ c, s.input.head? = some c → isVoid c = false) : skip_void s = s := by
  obtain ⟨input, line⟩ := s
  cases input with
  | nil => rfl
  | cons c rest =>
    have hc : isVoid c = false := h c rfl
    simp [skip_void, skip, skipAux, hc]

theorem skip_char_not_head {c : Char} {s : PState} (h : s.input.head? ≠ some c) :
    ∃ ln, skip_char c s = .error ⟨ln, "expected `" ++ String.mk [c] ++ "`"⟩ := by
  obtain ⟨input, line⟩ := s
  cases input with
  | nil => exact ⟨line, rfl⟩
  | cons d rest =>
    have hd : ¬ d = c := fun he => h (by simp [he])
    refine ⟨if d = '\n' then line + 1 else line, ?_⟩
    simp [skip_char, next, hd]

/-!  Claim theorems. -/

/-- C5: id extraction converts the second underscore-separated field of the
token: `t0_42` yields 42, a token without an underscore or with a non-numeric
second field fails, and `t0_1_2` yields 1, discarding the later fields. -/
theorem claim5_read_id_second_field :
    read_id (mkState "t0_42") = (some 42, ⟨[], 1⟩) ∧
    read_id (mkState "abc") = (none, ⟨[], 1⟩) ∧
    read_id (mkState "t0_x") = (none, ⟨[], 1⟩) ∧
    read_id (mkState "t0_1_2") = (some 1, ⟨[], 1⟩) := by
  exact ⟨by decide, by decide, by decide, by decide⟩

/-- C2 (divergence witness): on the document `@a 0 \x7b#(newline)#--(newline)# 0`
the table declares zero columns and the next character is a digit, so the row
loop of `process_table` never advances: no amount of fuel produces a result,
which renders the source's infinite loop. -/
theorem claim2_zero_column_table_diverges :
    ∀ fuel content, processF fuel content (mkState "@a 0 \x7b#\n#--\n# 0") = .diverge := by
  intro fuel content
  cases fuel with
  | zero => rfl
  | succ f => rfl

/-- C2 witness: the divergence theorem applied at a concrete fuel and
content. -/
theorem claim2_witness :
    processF 42 Content.new (mkState "@a 0 \x7b#\n#--\n# 0") = .diverge :=
  claim2_zero_column_table_diverges 42 Content.new

/-- C9: an input whose first character is a space, tab or newline fails at
once with `found an unknown statement`: the top-level loop dispatches on the
raw next character without skipping leading whitespace. -/
theorem claim9_leading_whitespace_rejected (input : String) (c : Char) (rest : List Char)
    (h : input.toList = c :: rest) (hc : isVoid c = true) :
    parseDocument input = .err ⟨1, "found an unknown statement"⟩ := by
  unfold parseDocument process mkState
  rw [h]
  rcases isVoid_cases hc with h' | h' | h' <;> subst h' <;> rfl

/-- C9 witness: the leading-whitespace theorem applied to a concrete document
that would be valid without its leading space. -/
theorem claim9_witness :
    parseDocument " @abc 1" = .err ⟨1, "found an unknown statement"⟩ :=
  claim9_leading_whitespace_rejected " @abc 1" ' ' ( "@abc 1".toList) (by decide) (by decide)

/-- C3 counterexample: a block whose closing brace is missing fails with
`expected `\x7d``, not with the message `cannot find the end of a block`
stated by the spec (that message occurs nowhere in the parser). -/
theorem claim3_counterexample :
    parseDocument "@a 0 \x7b" = .err ⟨1, "expected `\x7d`"⟩ ∧
    ( "expected `\x7d`" ≠ "cannot find the end of a block") :=
  ⟨by decide, by decide⟩

/-- C3 as amended: whenever the body of a block parses successfully and the
next character is not the closing brace (or the input is exhausted), the block
parser fails with `expected `\x7d``. -/
theorem claim3_missing_close_fails (name : String) (id : Nat) (content c' : Content)
    (s s1 s2 : PState) (h1 : skip_char '\x7b' s = .ok ((), s1))
    (h2 : blockBody name id content s1 = .ok c' s2)
    (h3 : s2.input.head? ≠ some '\x7d') :
    ∃ ln, process_block name id content s = .err ⟨ln, "expected `\x7d`"⟩ := by
  obtain ⟨ln, hsc⟩ := skip_char_not_head h3
  refine ⟨ln, ?_⟩
  have hmsg : "expected `" ++ String.mk [ '\x7d'] ++ "`" = "expected `\x7d`" := by decide
  simp only [process_block, h1, h2, hsc, liftE, obind]
  rw [hmsg]

/-- C3 witness: the amended theorem applied to a concrete unterminated graph
block. -/
theorem claim3_witness :
    ∃ ln, process_block "" 0 Content.new (mkState "\x7b x 1 ") =
      .err ⟨ln, "expected `\x7d`"⟩ :=
  claim3_missing_close_fails "" 0 Content.new ⟨[], [⟨ "", 0, [( "x", 1)], [], [], []⟩], []⟩
    (mkState "\x7b x 1 ") ⟨[ 'x', ' ', '1', ' '], 1⟩ ⟨[], 1⟩
    (by decide) (by decide) (by decide)

/-!  Attribute mapping facts (for the duplicate-declaration claim). -/

theorem countKey_cons_self {α : Type} (m : List (String × α)) (k : String) (v : α) :
    countKey ((k, v) :: m) k = countKey m k + 1 := by
  simp [countKey, List.filter]

theorem countKey_cons_ne {α : Type} (m : List (String × α)) {k' k : String} (v : α)
    (h : ¬ k' = k) : countKey ((k', v) :: m) k = countKey m k := by
  simp [countKey, List.filter, h]

theorem lookupAttr_insertAttr_self {α : Type} (m : List (String × α)) (k : String) (v : α) :
    lookupAttr (insertAttr m k v) k = some v := by
  induction m with
  | nil => simp [insertAttr, lookupAttr]
  | cons p rest ih =>
    obtain ⟨k', v'⟩ := p
    by_cases h : k' = k
    · subst h
      simp [insertAttr, lookupAttr]
    · simp [insertAttr, lookupAttr, h, ih]

theorem countKey_insertAttr_self {α : Type} (m : List (String × α)) (k : String) (v : α)
    (h : countKey m k ≤ 1) : countKey (insertAttr m k v) k = 1 := by
  induction m with
  | nil => simp [insertAttr, countKey, List.filter]
  | cons p rest ih =>
    obtain ⟨k', v'⟩ := p
    by_cases hk : k' = k
    · subst hk
      rw [countKey_cons_self] at h
      have hr : countKey rest k' = 0 := by omega
      show countKey (if k' = k' then (k', v) :: rest else (k', v') :: insertAttr rest k' v) k' = 1
      rw [if_pos rfl, countKey_cons_self, hr]
    · rw [countKey_cons_ne rest v' hk] at h
      simp only [insertAttr, if_neg hk]
      rw [countKey_cons_ne _ v' hk]
      exact ih h

/-- C10: inserting a name twice into one attribute scope keeps the name once,
bound to the later value — proved in general for the map insert used by all
three scopes, and exercised end to end for a duplicated global attribute, a
duplicated graph attribute, and a duplicated table-header attribute. -/
theorem claim10_duplicate_last_wins :
    (∀ (m : List (String × Nat)) (k : String) (v1 v2 : Nat), countKey m k ≤ 1 →
      lookupAttr (insertAttr (insertAttr m k v1) k v2) k = some v2 ∧
      countKey (insertAttr (insertAttr m k v1) k v2) k = 1) ∧
    parseDocument "@a 1\n@a 2" = .ok ⟨[( "a", 2)], [], []⟩ ⟨[], 2⟩ ∧
    parseDocument "@g 0 \x7b a 1 a 2 \x7d" =
      .ok ⟨[], [⟨ "g", 0, [( "a", 2)], [], [], []⟩], []⟩ ⟨[], 1⟩ ∧
    parseDocument "@t 0 \x7b# a a\n1 2\n#--\n# x\n3\n\x7d" =
      .ok ⟨[], [], [⟨ "t", 0, [( "a", mkRat 2 1)], [⟨ "x", [mkRat 3 1]⟩]⟩]⟩ ⟨[], 6⟩ := by
  refine ⟨?_, by decide, by decide, by decide⟩
  intro m k v1 v2 h
  have h1 : countKey (insertAttr m k v1) k = 1 := countKey_insertAttr_self m k v1 h
  exact ⟨lookupAttr_insertAttr_self _ k v2, countKey_insertAttr_self _ k v2 (by omega)⟩

/-- C10 witness: the general last-wins fact applied to a concrete map. -/
theorem claim10_witness :
    lookupAttr (insertAttr (insertAttr [( "b", 7)] "a" 1) "a" 2) "a" = some 2 ∧
    countKey (insertAttr (insertAttr [( "b", 7)] "a" 1) "a" 2) "a" = 1 :=
  claim10_duplicate_last_wins.1 [( "b", 7)] "a" 1 2 (by decide)

/-!  Row-loop facts (for the table claims). -/

theorem get_real_err {s : PState} {e : Error} (h : get_real s = .error e) :
    e.message = "expected a real number" := by
  unfold get_real at h
  cases hr : read_real s with
  | mk r s' =>
    rw [hr] at h
    cases r with
    | some v => simp at h
    | none =>
      simp only [Except.error.injEq] at h
      rw [← h]

theorem readRow_err {cols : List Column} {s : PState} {e : Error}
    (h : readRow cols s = .error e) : e.message = "expected a real number" := by
  induction cols generalizing s with
  | nil => simp [readRow] at h
  | cons col rest ih =>
    unfold readRow at h
    split at h
    · rename_i e1 hg
      cases h
      exact get_real_err hg
    · split at h
      · rename_i e1 hr
        cases h
        exact ih hr
      · cases h

theorem rowLoopF_err {fuel : Nat} {cols : List Column} {s : PState} {e : Error}
    (h : rowLoopF fuel cols s = .err e) : e.message = "expected a real number" := by
  induction fuel generalizing cols s with
  | zero => simp [rowLoopF] at h
  | succ f ih =>
    unfold rowLoopF at h
    split at h
    · cases h
    · cases h
    · cases hr : readRow cols s with
      | error e' =>
        rw [hr] at h
        cases h
        exact readRow_err hr
      | ok p =>
        obtain ⟨cols', s'⟩ := p
        rw [hr] at h
        exact ih h

theorem readRow_spec {cols : List Column} {s : PState} {cols' : List Column} {s' : PState}
    (h : readRow cols s = .ok (cols', s')) :
    ∃ rs : List ℚ, rs.length = cols.length ∧
      cols' = List.zipWith (fun c r => ⟨c.name, c.data ++ [r]⟩) cols rs := by
  induction cols generalizing s cols' with
  | nil =>
    unfold readRow at h
    cases h
    exact ⟨[], rfl, rfl⟩
  | cons col rest ih =>
    unfold readRow at h
    split at h
    · cases h
    · split at h
      · cases h
      · cases h
        rename_i v s1 hg cols1 s2 hr
        obtain ⟨rs, hlen, hspec⟩ := ih hr
        refine ⟨v :: rs, by simp [hlen], ?_⟩
        simp [List.zipWith, ← hspec]

theorem readRow_allLen {cols : List Column} {s : PState} {cols' : List Column} {s' : PState}
    {n : Nat} (h : readRow cols s = .ok (cols', s'))
    (hall : ∀ c ∈ cols, c.data.length = n) : ∀ c ∈ cols', c.data.length = n + 1 := by
  induction cols generalizing s cols' with
  | nil =>
    unfold readRow at h
    cases h
    intro c hc
    cases hc
  | cons col rest ih =>
    unfold readRow at h
    split at h
    · cases h
    · split at h
      · cases h
      · cases h
        rename_i v s1 hg cols1 s2 hr
        intro c hc
        rcases List.mem_cons.mp hc with hc | hc
        · subst hc
          have := hall col (List.mem_cons_self _ _)
          simp [this]
        · exact ih hr (fun c' hc' => hall c' (List.mem_cons_of_mem _ hc')) c hc

theorem rowLoopF_allLen {fuel : Nat} {cols : List Column} {s : PState} {cols' : List Column}
    {s' : PState} {n : Nat} (h : rowLoopF fuel cols s = .ok cols' s')
    (hall : ∀ c ∈ cols, c.data.length = n) : ∃ m, ∀ c ∈ cols', c.data.length = m := by
  induction fuel generalizing cols s n with
  | zero =>
    unfold rowLoopF at h
    cases h
  | succ f ih =>
    unfold rowLoopF at h
    split at h
    · cases h
      exact ⟨n, hall⟩
    · cases h
      exact ⟨n, hall⟩
    · split at h
      · cases h
      · rename_i p hr
        exact ih h (readRow_allLen hr hall)

theorem process_table_columns_uniform {name : String} {id : Nat} {s : PState} {t : Table}
    {s' : PState} (h : process_table name id s = .ok t s') :
    ∃ m, ∀ col ∈ t.columns, col.data.length = m := by
  unfold process_table at h
  cases h1 : skip_char '#' s with
  | error e => rw [h1] at h; simp [liftE] at h
  | ok p =>
    obtain ⟨u1, s1⟩ := p
    rw [h1] at h
    simp only [liftE] at h
    cases h2 : tokenLoopF (s1.input.length + 1) [] s1 with
    | err e => rw [h2] at h; simp [obind] at h
    | diverge => rw [h2] at h; simp [obind] at h
    | ok names s2 =>
      rw [h2] at h
      simp only [obind] at h
      cases h3 : headerAttrs names (Table.new name id) s2 with
      | error e => rw [h3] at h; simp [liftE] at h
      | ok p =>
        obtain ⟨t1, s3⟩ := p
        rw [h3] at h
        simp only [liftE] at h
        cases h4 : skip_comment s3 with
        | error e => rw [h4] at h; simp [liftE] at h
        | ok p =>
          obtain ⟨u4, s4⟩ := p
          rw [h4] at h
          simp only [liftE] at h
          cases h5 : skip_char '#' s4 with
          | error e => rw [h5] at h; simp [liftE] at h
          | ok p =>
            obtain ⟨u5, s5⟩ := p
            rw [h5] at h
            simp only [liftE] at h
            cases h6 : tokenLoopF (s5.input.length + 1) [] s5 with
            | err e => rw [h6] at h; simp [obind] at h
            | diverge => rw [h6] at h; simp [obind] at h
            | ok colNames s6 =>
              rw [h6] at h
              simp only [obind] at h
              cases h7 : rowLoopF (s6.input.length + 1) (colNames.map Column.new) s6 with
              | err e => rw [h7] at h; simp [obind] at h
              | diverge => rw [h7] at h; simp [obind] at h
              | ok cols s7 =>
                rw [h7] at h
                simp only [obind] at h
                cases h
                have hall : ∀ c ∈ colNames.map Column.new, c.data.length = 0 := by
                  intro c hc
                  obtain ⟨nm, _, rfl⟩ := List.mem_map.mp hc
                  rfl
                exact rowLoopF_allLen h7 hall

/-- C8: any failure inside the table row loop carries the message
`expected a real number`; a table that parses successfully has the same
number of data values in every column (no truncated row is ever stored); and
a concrete document whose last row supplies one real for two declared columns
fails with exactly that message. -/
theorem claim8_truncated_row_fails :
    (∀ (fuel : Nat) (cols : List Column) (s : PState) (e : Error),
      rowLoopF fuel cols s = .err e → e.message = "expected a real number") ∧
    (∀ (name : String) (id : Nat) (s : PState) (t : Table) (s' : PState),
      process_table name id s = .ok t s' → ∃ m, ∀ col ∈ t.columns, col.data.length = m) ∧
    parseDocument "@t 0 \x7b# \n#--\n# a b\n1 2 3\n\x7d" = .err ⟨5, "expected a real number"⟩ :=
  ⟨fun _ _ _ _ h => rowLoopF_err h, fun _ _ _ _ _ h => process_table_columns_uniform h,
    by decide⟩

/-- C8 witness: the uniform-length consequence applied to a concrete
successful table parse. -/
theorem claim8_witness :
    ∃ m, ∀ col ∈ (Table.mk "t" 0 [( "a", mkRat 2 1)] [⟨ "x", [mkRat 3 1]⟩]).columns,
      col.data.length = m :=
  claim8_truncated_row_fails.2.1 "t" 0 (mkState "# a a\n1 2\n#--\n# x\n3\n")
    ⟨ "t", 0, [( "a", mkRat 2 1)], [⟨ "x", [mkRat 3 1]⟩]⟩ ⟨[], 6⟩ (by decide)

/-- C1: the table body `# foo(nl) 70.07(nl)#--(nl)# bar baz(nl)1 2 3 4 ` parses
into header attribute `foo -> 70.07` and columns `bar = [1, 3]`,
`baz = [2, 4]`; and in general every successful row iteration reads one real
per declared column in order, appending it to that column's data. -/
theorem claim1_table_body :
    process_table "" 0 (mkState "# foo\n 70.07\n#--\n# bar baz\n1 2 3 4 ") =
      .ok ⟨ "", 0, [( "foo", (70.07 : ℚ))],
        [⟨ "bar", [(1 : ℚ), 3]⟩, ⟨ "baz", [(2 : ℚ), 4]⟩]⟩ ⟨[], 5⟩ ∧
    (∀ (cols : List Column) (s : PState) (cols' : List Column) (s' : PState),
      readRow cols s = .ok (cols', s') →
      ∃ rs : List ℚ, rs.length = cols.length ∧
        cols' = List.zipWith (fun c r => ⟨c.name, c.data ++ [r]⟩) cols rs) := by
  constructor
  · have h1 : (70.07 : ℚ) = mkRat 7007 100 := by norm_num [Rat.mkRat_eq_div]
    have h2 : (1 : ℚ) = mkRat 1 1 := by norm_num [Rat.mkRat_eq_div]
    have h3 : (3 : ℚ) = mkRat 3 1 := by norm_num [Rat.mkRat_eq_div]
    have h4 : (2 : ℚ) = mkRat 2 1 := by norm_num [Rat.mkRat_eq_div]
    have h5 : (4 : ℚ) = mkRat 4 1 := by norm_num [Rat.mkRat_eq_div]
    rw [h1, h2, h3, h4, h5]
    decide
  · exact fun _ _ _ _ h => readRow_spec h

/-- C1 witness: the row-iteration consequence applied to a concrete one-column
row read. -/
theorem claim1_witness :
    ∃ rs : List ℚ, rs.length = [Column.mk "c" []].length ∧
      [Column.mk "c" [mkRat 5 1]] =
        List.zipWith (fun c r => ⟨c.name, c.data ++ [r]⟩) [Column.mk "c" []] rs :=
  claim1_table_body.2 [Column.mk "c" []] (mkState "5") [Column.mk "c" [mkRat 5 1]] ⟨[], 1⟩
    (by decide)

/-!  Block-dispatch facts. -/

theorem skip_char_cons {c : Char} {rest : List Char} {line : Nat} (hnl : ¬ c = '\n') :
    skip_char c ⟨c :: rest, line⟩ = .ok ((), skip_void ⟨rest, line⟩) := by
  simp [skip_char, next, hnl]

/-- C6: for a block whose brace is followed by `rest`, a successful
`process_block` produced a table (one table appended, graphs untouched) if
and only if the first non-whitespace character of `rest` is `#`, and a graph
(one graph appended, tables untouched) if and only if it is not. -/
theorem claim6_block_dispatch (name : String) (id : Nat) (content : Content) (s : PState)
    (rest : List Char) (c' : Content) (sf : PState)
    (hin : s.input = '\x7b' :: rest)
    (h : process_block name id content s = .ok c' sf) :
    ((c'.tables.length = content.tables.length + 1 ∧ c'.graphs = content.graphs) ↔
      firstNonVoid rest = some '#') ∧
    ((c'.graphs.length = content.graphs.length + 1 ∧ c'.tables = content.tables) ↔
      firstNonVoid rest ≠ some '#') := by
  obtain ⟨input, line⟩ := s
  simp only at hin
  subst hin
  have hsc : skip_char '\x7b' ⟨ '\x7b' :: rest, line⟩ = .ok ((), skip_void ⟨rest, line⟩) :=
    skip_char_cons (by decide)
  unfold process_block at h
  rw [hsc] at h
  simp only [liftE] at h
  have hfnv : (skip_void ⟨rest, line⟩).input.head? = firstNonVoid rest := by
    rw [skip_void_input]
    rfl
  unfold blockBody at h
  split at h
  · rename_i heq
    rw [hfnv] at heq
    cases h7 : process_table name id (skip_void ⟨rest, line⟩) with
    | err e => rw [h7] at h; simp [obind] at h
    | diverge => rw [h7] at h; simp [obind] at h
    | ok t s2 =>
      rw [h7] at h
      simp only [obind] at h
      cases h8 : skip_char '\x7d' s2 with
      | error e => rw [h8] at h; simp [liftE] at h
      | ok p =>
        obtain ⟨u, s3⟩ := p
        rw [h8] at h
        simp only [liftE] at h
        cases h
        constructor
        · simp [heq]
        · simp [heq]
  · rename_i heq
    have hne : firstNonVoid rest ≠ some '#' := by
      intro hx
      rw [← hfnv] at hx
      exact heq hx
    cases h7 : process_graph name id (skip_void ⟨rest, line⟩) with
    | err e => rw [h7] at h; simp [obind] at h
    | diverge => rw [h7] at h; simp [obind] at h
    | ok g s2 =>
      rw [h7] at h
      simp only [obind] at h
      cases h8 : skip_char '\x7d' s2 with
      | error e => rw [h8] at h; simp [liftE] at h
      | ok p =>
        obtain ⟨u, s3⟩ := p
        rw [h8] at h
        simp only [liftE] at h
        cases h
        constructor
        · simp [hne]
        · simp [hne]

/-- C6 witness: the dispatch equivalence applied to a concrete empty-table
block. -/
theorem claim6_witness :
    (((⟨[], [], [⟨ "", 0, [], []⟩]⟩ : Content).tables.length = Content.new.tables.length + 1 ∧
        (⟨[], [], [⟨ "", 0, [], []⟩]⟩ : Content).graphs = Content.new.graphs) ↔
      firstNonVoid ( "# \n#--\n# \n\x7d".toList) = some '#') ∧
    (((⟨[], [], [⟨ "", 0, [], []⟩]⟩ : Content).graphs.length = Content.new.graphs.length + 1 ∧
        (⟨[], [], [⟨ "", 0, [], []⟩]⟩ : Content).tables = Content.new.tables) ↔
      firstNonVoid ( "# \n#--\n# \n\x7d".toList) ≠ some '#') :=
  claim6_block_dispatch "" 0 Content.new (mkState "\x7b# \n#--\n# \n\x7d")
    ( "# \n#--\n# \n\x7d".toList) ⟨[], [], [⟨ "", 0, [], []⟩]⟩ ⟨[], 4⟩
    (by decide) (by decide)

/-!  Numeral rendering and exact-read facts (for the global-attribute claim). -/

theorem digitChar_toNat {d : Nat} (h : d < 10) : (digitChar d).toNat = 48 + d := by
  interval_cases d <;> decide

theorem digitChar_isDigit {d : Nat} (h : d < 10) : isDigitChar (digitChar d) = true := by
  interval_cases d <;> decide

theorem isDigit_digitVal {c : Char} (h : isDigitChar c = true) :
    digitVal c = some (c.toNat - '0'.toNat) := by
  simp only [isDigitChar, Bool.and_eq_true, decide_eq_true_eq] at h
  simp [digitVal, h.1, h.2]

theorem isDigit_ne_minus {c : Char} (h : isDigitChar c = true) : ¬ c = '-' := by
  intro he
  subst he
  exact absurd h (by decide)

theorem isDigit_ne_plus {c : Char} (h : isDigitChar c = true) : ¬ c = '+' := by
  intro he
  subst he
  exact absurd h (by decide)

theorem parseDigits_all {ds : List Char} (hdig : ∀ c ∈ ds, isDigitChar c = true) :
    ∀ a, parseDigits ds a =
      some (ds.foldl (fun x c => x * 10 + (c.toNat - '0'.toNat)) a) := by
  induction ds with
  | nil => intro a; rfl
  | cons c rest ih =>
    intro a
    have hc := hdig c (List.mem_cons_self _ _)
    rw [parseDigits, isDigit_digitVal hc]
    exact ih (fun c' hc' => hdig c' (List.mem_cons_of_mem _ hc')) _

theorem natLitAux_spec : ∀ (fuel v : Nat), v < fuel → ∀ acc,
    ∃ ds, natLitAux fuel v acc = ds ++ acc ∧ ds ≠ [] ∧
      (∀ c ∈ ds, isDigitChar c = true) ∧
      ds.foldl (fun x c => x * 10 + (c.toNat - '0'.toNat)) 0 = v := by
  intro fuel
  induction fuel with
  | zero => intro v hv; omega
  | succ f ih =>
    intro v hv acc
    by_cases h10 : v < 10
    · refine ⟨[digitChar v], by simp [natLitAux, h10], by simp, ?_, ?_⟩
      · intro c hc
        rw [List.mem_singleton] at hc
        subst hc
        exact digitChar_isDigit h10
      · simp [List.foldl, digitChar_toNat h10]
    · have hv10 : v / 10 < f := by
        have := Nat.div_lt_self (by omega : 0 < v) (by omega : 1 < 10)
        omega
      obtain ⟨ds', heq, hne, hdig, hval⟩ := ih (v / 10) hv10 (digitChar (v % 10) :: acc)
      refine ⟨ds' ++ [digitChar (v % 10)], ?_, by simp, ?_, ?_⟩
      · rw [natLitAux, if_neg h10, heq, List.append_assoc]
        rfl
      · intro c hc
        rcases List.mem_append.mp hc with hc | hc
        · exact hdig c hc
        · rw [List.mem_singleton] at hc
          subst hc
          exact digitChar_isDigit (Nat.mod_lt _ (by omega))
      · rw [List.foldl_append, hval]
        simp only [List.foldl]
        rw [digitChar_toNat (Nat.mod_lt _ (by omega))]
        have h0 : '0'.toNat = 48 := rfl
        rw [h0]
        omega

theorem natLit_spec (v : Nat) :
    natLit v ≠ [] ∧ (∀ c ∈ natLit v, isDigitChar c = true) ∧
      parseDigits (natLit v) 0 = some v := by
  obtain ⟨ds, heq, hne, hdig, hval⟩ := natLitAux_spec (v + 1) v (by omega) []
  rw [List.append_nil] at heq
  rw [natLit, heq]
  exact ⟨hne, hdig, by rw [parseDigits_all hdig, hval]⟩

theorem parseDigits_le : ∀ {ds : List Char} {a v : Nat}, parseDigits ds a = some v → a ≤ v := by
  intro ds
  induction ds with
  | nil =>
    intro a v h
    rw [parseDigits] at h
    cases h
    exact Nat.le_refl _
  | cons c rest ih =>
    intro a v h
    rw [parseDigits] at h
    split at h
    · rename_i d hd
      have := ih h
      omega
    · cases h

theorem parseDigitsU64_of_lt : ∀ {ds : List Char} {a v : Nat},
    parseDigits ds a = some v → v < 2 ^ 64 → parseDigitsU64 ds a = some v := by
  intro ds
  induction ds with
  | nil =>
    intro a v h hv
    rw [parseDigits] at h
    cases h
    rfl
  | cons c rest ih =>
    intro a v h hv
    rw [parseDigits] at h
    split at h
    · rename_i d hd
      have hle := parseDigits_le h
      rw [parseDigitsU64, hd]
      show (if a * 10 + d < 2 ^ 64 then parseDigitsU64 rest (a * 10 + d) else none) = some v
      rw [if_pos (by omega)]
      exact ih h hv
    · cases h

theorem fromStrRadixNat_digits {ds : List Char} {v : Nat} (hne : ds ≠ [])
    (hdig : ∀ c ∈ ds, isDigitChar c = true) (hval : parseDigits ds 0 = some v)
    (hlt : v < 2 ^ 64) : fromStrRadixNat ds = some v := by
  cases ds with
  | nil => exact absurd rfl hne
  | cons d dtl =>
    have hd := hdig d (List.mem_cons_self _ _)
    rw [fromStrRadixNat, if_neg (isDigit_ne_minus hd)]
    simp only [if_neg (isDigit_ne_plus hd)]
    show parseDigitsU64 (d :: dtl) 0 = some v
    exact parseDigitsU64_of_lt hval hlt

theorem readAux_exact (accept : Nat → Char → Bool) (pre rest : List Char) :
    ∀ (count line : Nat) (acc : List Char),
    (∀ j, (hj : j < pre.length) → accept (count + j) (pre.get ⟨j, hj⟩) = true) →
    (∀ c, rest.head? = some c → accept (count + pre.length) c = false) →
    ∃ ln, readAux accept count (pre ++ rest) line acc =
      (acc ++ pre, count + pre.length, ⟨rest, ln⟩) := by
  induction pre with
  | nil =>
    intro count line acc hpre hstop
    cases rest with
    | nil => exact ⟨line, by simp [readAux]⟩
    | cons c rs =>
      have hc := hstop c rfl
      simp only [List.length_nil, Nat.add_zero] at hc
      exact ⟨line, by simp [readAux, hc]⟩
  | cons p ps ih =>
    intro count line acc hpre hstop
    have hp : accept count p = true := by
      have := hpre 0 (by simp)
      simpa using this
    obtain ⟨ln, hrec⟩ := ih (count + 1) (if p = '\n' then line + 1 else line) (acc ++ [p])
      (fun j hj => by
        have := hpre (j + 1) (by simpa using Nat.succ_lt_succ hj)
        simpa [Nat.add_assoc, Nat.add_comm 1 j] using this)
      (fun c hc => by
        have := hstop c hc
        simpa [Nat.add_assoc, Nat.add_comm 1 ps.length] using this)
    refine ⟨ln, ?_⟩
    rw [List.cons_append, readAux, if_pos hp, hrec]
    simp [List.append_assoc, Nat.add_assoc, Nat.add_comm 1 ps.length]

theorem read_exact (accept : Nat → Char → Bool) (pre rest : List Char) (s : PState)
    (hin : s.input = pre ++ rest) (hne : pre ≠ [])
    (hpre : ∀ j, (hj : j < pre.length) → accept j (pre.get ⟨j, hj⟩) = true)
    (hstop : ∀ c, rest.head? = some c → accept pre.length c = false) :
    ∃ ln, read accept s = (some (String.mk pre), ⟨rest, ln⟩) := by
  obtain ⟨ln, hra⟩ := readAux_exact accept pre rest 0 s.line []
    (fun j hj => by simpa using hpre j hj)
    (fun c hc => by simpa using hstop c hc)
  refine ⟨ln, ?_⟩
  unfold read
  rw [hin, hra]
  have : ¬ (0 + pre.length = 0) := by
    cases pre with
    | nil => exact absurd rfl hne
    | cons a b => simp
  simp [this, hne]

theorem tokenAccept_pos {i : Nat} (c : Char) (h : ¬ i = 0) :
    tokenAccept i c = (isAlphaChar c || isDigitChar c || (c == '_')) := by
  rw [tokenAccept, if_neg h]

theorem read_token_valid (c : Char) (cs tail : List Char) (line : Nat)
    (hc : isAlphaChar c = true)
    (hcs : ∀ c' ∈ cs, (isAlphaChar c' || isDigitChar c' || (c' == '_')) = true)
    (hstop : ∀ d, tail.head? = some d →
      (isAlphaChar d || isDigitChar d || (d == '_')) = false) :
    ∃ ln, read_token ⟨(c :: cs) ++ tail, line⟩ =
      (some (String.mk (c :: cs)), skip_void ⟨tail, ln⟩) := by
  obtain ⟨ln, hr⟩ := read_exact tokenAccept (c :: cs) tail ⟨(c :: cs) ++ tail, line⟩ rfl
    (by simp)
    (fun j hj => by
      cases j with
      | zero => simpa [tokenAccept] using hc
      | succ j =>
        rw [tokenAccept_pos _ (by omega)]
        exact hcs _ (List.get_mem cs _ _)
        )
    (fun d hd => by
      rw [tokenAccept_pos _ (by simp)]
      exact hstop d hd)
  refine ⟨ln, ?_⟩
  unfold read_token
  rw [hr]

theorem skip_void_nil (ln : Nat) : skip_void ⟨[], ln⟩ = ⟨[], ln⟩ := rfl

theorem skip_void_space {l : List Char} {ln : Nat}
    (h : ∀ c, l.head? = some c → isVoid c = false) :
    skip_void ⟨ ' ' :: l, ln⟩ = ⟨l, ln⟩ := by
  cases l with
  | nil => rfl
  | cons c rest =>
    have hc := h c rfl
    simp only [isVoid, Bool.or_eq_false_iff, beq_eq_false_iff_ne, ne_eq] at hc
    simp [skip_void, skip, skipAux, isVoid, hc.1.1, hc.1.2, hc.2]

theorem get_natural_digits {v : Nat} (ds : List Char) (line : Nat) (hne : ds ≠ [])
    (hdig : ∀ c ∈ ds, isDigitChar c = true) (hval : parseDigits ds 0 = some v)
    (hlt : v < 2 ^ 64) :
    ∃ ln, get_natural ⟨ds, line⟩ = .ok (v, ⟨[], ln⟩) := by
  obtain ⟨ln, hr⟩ := read_exact (fun _ c => isDigitChar c) ds [] ⟨ds, line⟩
    (by simp) hne
    (fun j hj => hdig _ (List.get_mem ds _ _))
    (fun c hc => by cases hc)
  refine ⟨ln, ?_⟩
  unfold get_natural read_natural
  rw [hr]
  simp only [skip_void_nil]
  have hts : (String.mk ds).toList = ds := rfl
  rw [hts, fromStrRadixNat_digits hne hdig hval hlt]

/-- C4 counterexample to the unbounded claim: for the identifier `a` and the
natural number `2 ^ 64` — the first value not representable in the 64-bit
`uint` — the document `@a 18446744073709551616` does not parse into a global
attribute: `from_str_radix` fails on overflow and the parse errors with
"expected a natural number" at line 1. -/
theorem claim4_counterexample :
    process ⟨ '@' :: "a".toList ++ ' ' :: natLit (2 ^ 64), 1⟩ =
      .err ⟨1, "expected a natural number"⟩ := by decide

/-- C4 (amended with the `uint` range): a document consisting of `@`, a valid
identifier, a space and a decimal numeral — with no brace following — whose
value is representable in the 64-bit `uint`, parses into a content whose
global attribute map binds exactly that name to that value, with no graphs
and no tables. -/
theorem claim4_global_attribute (NAME : String) (hN : validTokenStr NAME) (v : Nat)
    (hv : v < 2 ^ 64) :
    ∃ sf, process ⟨ '@' :: NAME.toList ++ ' ' :: natLit v, 1⟩ =
      .ok ⟨[(NAME, v)], [], []⟩ sf := by
  obtain ⟨hnne, hdig, hval⟩ := natLit_spec v
  obtain ⟨c, cs, hcl, hc, hcs⟩ := hN
  obtain ⟨d, dtl, hds⟩ : ∃ d dtl, natLit v = d :: dtl := by
    cases hx : natLit v with
    | nil => exact absurd hx hnne
    | cons a b => exact ⟨a, b, rfl⟩
  have hdhead : isDigitChar d = true := hdig d (by rw [hds]; exact List.mem_cons_self _ _)
  -- the token read
  obtain ⟨ln1, htok⟩ := read_token_valid c cs ( ' ' :: natLit v) 1 hc hcs
    (fun e he => by
      simp only [List.head?] at he
      cases he
      decide)
  have hsv1 : skip_void ⟨ ' ' :: natLit v, ln1⟩ = ⟨natLit v, ln1⟩ :=
    skip_void_space (fun e he => by
      rw [hds] at he
      simp only [List.head?] at he
      cases he
      exact digit_not_void hdhead)
  -- the numeral read
  obtain ⟨ln2, hnat⟩ := get_natural_digits (natLit v) ln1 hnne hdig hval hv
  -- name reassembly
  have hname : String.mk (c :: cs) = NAME := by
    cases NAME with
    | mk dat =>
      have : dat = c :: cs := hcl
      rw [this]
  -- the assembled token step
  have hgt : get_token ⟨NAME.toList ++ ' ' :: natLit v, 1⟩ = .ok (NAME, ⟨natLit v, ln1⟩) := by
    unfold get_token
    rw [hcl, htok, hname, hsv1]
  have hskip : skip_char '@' ⟨ '@' :: (NAME.toList ++ ' ' :: natLit v), 1⟩ =
      .ok ((), skip_void ⟨NAME.toList ++ ' ' :: natLit v, 1⟩) := skip_char_cons (by decide)
  have hsv0 : skip_void ⟨NAME.toList ++ ' ' :: natLit v, 1⟩ =
      ⟨NAME.toList ++ ' ' :: natLit v, 1⟩ := by
    apply skip_void_of_headNonVoid
    intro e he
    rw [hcl] at he
    simp only [List.cons_append, List.head?] at he
    cases he
    exact alpha_not_void hc
  -- process_at evaluation
  have hat : process_at Content.new ⟨ '@' :: (NAME.toList ++ ' ' :: natLit v), 1⟩ =
      .ok ⟨[(NAME, v)], [], []⟩ ⟨[], ln2⟩ := by
    unfold process_at
    rw [hskip]
    simp only [liftE]
    rw [hsv0, hgt]
    simp only [liftE]
    rw [hnat]
    simp only [liftE]
    rfl
  refine ⟨⟨[], ln2⟩, ?_⟩
  unfold process
  simp only [List.cons_append, List.length_cons]
  show processF ((NAME.toList ++ ' ' :: natLit v).length + 1 + 1) Content.new
    ⟨ '@' :: (NAME.toList ++ ' ' :: natLit v), 1⟩ = _
  rw [processF]
  simp only [List.head?]
  rw [hat]
  simp only [obind]
  rw [processF]
  rfl

/-- C4 witness: the global-attribute theorem applied to the document
`@abc 12`. -/
theorem claim4_witness :
    ∃ sf, process ⟨ '@' :: "abc".toList ++ ' ' :: natLit 12, 1⟩ =
      .ok ⟨[( "abc", 12)], [], []⟩ sf :=
  claim4_global_attribute "abc" ⟨ 'a', [ 'b', 'c'], by decide, by decide, by decide⟩ 12
    (by decide)

/-!  Whitespace equivalence: basic properties. -/

theorem VE_refl : ∀ l : List Char, VE l l := by
  intro l
  induction l with
  | nil => exact VE.nil
  | cons c rest ih =>
    cases hc : isVoid c with
    | false => exact VE.cons hc ih
    | true =>
      refine @VE.run [c] [c] rest rest (by simp) (by simp) ?_ ?_ ih <;>
        · intro x hx
          rw [List.mem_singleton] at hx
          subst hx
          exact hc

theorem VE_nonvoid_destruct {xs ys : List Char} (h : VE xs ys)
    (hh : ∀ c, xs.head? = some c → isVoid c = false) :
    (xs = [] ∧ ys = []) ∨
      ∃ c xs' ys', isVoid c = false ∧ xs = c :: xs' ∧ ys = c :: ys' ∧ VE xs' ys' := by
  cases h with
  | nil => exact Or.inl ⟨rfl, rfl⟩
  | cons hc hve => exact Or.inr ⟨_, _, _, hc, rfl, rfl, hve⟩
  | run hr1 hr2 hv1 hv2 hve =>
    rename_i r1 r2 xs0 ys0
    exfalso
    cases r1 with
    | nil => exact hr1 rfl
    | cons d t =>
      have hfalse := hh d (by simp)
      have htrue : isVoid d = true := hv1 d (List.mem_cons_self _ _)
      simp [htrue] at hfalse

theorem sync_head_eq {s1 s2 : PState} (h : Sync s1 s2) : s1.input.head? = s2.input.head? := by
  obtain ⟨hve, h1, h2⟩ := h
  rcases VE_nonvoid_destruct hve h1 with ⟨hx, hy⟩ | ⟨c, xs', ys', hc, hx, hy, _⟩ <;>
    simp [hx, hy]

theorem dropWhile_append_void {r xs : List Char} (hr : ∀ c ∈ r, isVoid c = true) :
    (r ++ xs).dropWhile (fun c => isVoid c) = xs.dropWhile (fun c => isVoid c) := by
  induction r with
  | nil => rfl
  | cons d t ih =>
    rw [List.cons_append, List.dropWhile_cons]
    simp only [hr d (List.mem_cons_self _ _), if_true]
    exact ih (fun c hc => hr c (List.mem_cons_of_mem _ hc))

theorem VE_dropVoid {xs ys : List Char} (h : VE xs ys) :
    VE (xs.dropWhile (fun c => isVoid c)) (ys.dropWhile (fun c => isVoid c)) := by
  induction h with
  | nil => exact VE.nil
  | cons hc hve ih =>
    rw [List.dropWhile_cons, List.dropWhile_cons]
    simp only [hc, Bool.false_eq_true, if_false]
    exact VE.cons hc hve
  | run hr1 hr2 hv1 hv2 hve ih =>
    rw [dropWhile_append_void hv1, dropWhile_append_void hv2]
    exact ih

theorem head_dropWhile_not (l : List Char) :
    ∀ c, ((l.dropWhile (fun c => isVoid c)).head? = some c) → isVoid c = false := by
  induction l with
  | nil => intro c h; cases h
  | cons d t ih =>
    intro c h
    rw [List.dropWhile_cons] at h
    by_cases hd : isVoid d = true
    · rw [if_pos hd] at h
      exact ih c h
    · rw [if_neg hd] at h
      simp only [List.head?] at h
      cases h
      simpa using hd

theorem skip_void_sync {s1 s2 : PState} (h : VE s1.input s2.input) :
    Sync (skip_void s1) (skip_void s2) := by
  refine ⟨?_, ?_, ?_⟩
  · rw [skip_void_input, skip_void_input]
    exact VE_dropVoid h
  · rw [skip_void_input]
    exact head_dropWhile_not s1.input
  · rw [skip_void_input]
    exact head_dropWhile_not s2.input

/-!  Simulation of the two lexical loops over whitespace-equivalent inputs:
for predicates that never accept whitespace, both runs consume identical
characters and stop at equivalent suffixes. -/

theorem readAux_sim {accept : Nat → Char → Bool}
    (hacc : ∀ i c, accept i c = true → isVoid c = false)
    {xs ys : List Char} (hve : VE xs ys) :
    ∀ n ln1 ln2 acc,
      (readAux accept n xs ln1 acc).1 = (readAux accept n ys ln2 acc).1 ∧
      (readAux accept n xs ln1 acc).2.1 = (readAux accept n ys ln2 acc).2.1 ∧
      VE (readAux accept n xs ln1 acc).2.2.input (readAux accept n ys ln2 acc).2.2.input := by
  induction hve with
  | nil => intro n ln1 ln2 acc; exact ⟨rfl, rfl, VE.nil⟩
  | cons hc hve ih =>
    rename_i c xs' ys'
    intro n ln1 ln2 acc
    by_cases ha : accept n c = true
    · rw [readAux, readAux, if_pos ha, if_pos ha]
      exact ih (n + 1) _ _ (acc ++ [c])
    · rw [readAux, readAux, if_neg ha, if_neg ha]
      exact ⟨rfl, rfl, VE.cons hc hve⟩
  | run hr1 hr2 hv1 hv2 hve ih =>
    rename_i r1 r2 xs' ys'
    intro n ln1 ln2 acc
    obtain ⟨d1, t1, he1⟩ : ∃ d t, r1 = d :: t := by
      cases r1 with
      | nil => exact absurd rfl hr1
      | cons a b => exact ⟨a, b, rfl⟩
    obtain ⟨d2, t2, he2⟩ : ∃ d t, r2 = d :: t := by
      cases r2 with
      | nil => exact absurd rfl hr2
      | cons a b => exact ⟨a, b, rfl⟩
    have hd1 : isVoid d1 = true := hv1 d1 (he1 ▸ List.mem_cons_self _ _)
    have hd2 : isVoid d2 = true := hv2 d2 (he2 ▸ List.mem_cons_self _ _)
    have ha1 : ¬ accept n d1 = true := fun hx => by simp [hacc _ _ hx] at hd1
    have ha2 : ¬ accept n d2 = true := fun hx => by simp [hacc _ _ hx] at hd2
    rw [he1, he2, List.cons_append, List.cons_append, readAux, readAux,
      if_neg ha1, if_neg ha2]
    refine ⟨rfl, rfl, ?_⟩
    rw [← List.cons_append, ← List.cons_append, ← he1, ← he2]
    exact VE.run hr1 hr2 hv1 hv2 hve

theorem skipAux_sim {accept : Nat → Char → Bool}
    (hacc : ∀ i c, accept i c = true → isVoid c = false)
    {xs ys : List Char} (hve : VE xs ys) :
    ∀ n ln1 ln2,
      (skipAux accept n xs ln1).1 = (skipAux accept n ys ln2).1 ∧
      VE (skipAux accept n xs ln1).2.input (skipAux accept n ys ln2).2.input := by
  induction hve with
  | nil => intro n ln1 ln2; exact ⟨rfl, VE.nil⟩
  | cons hc hve ih =>
    rename_i c xs' ys'
    intro n ln1 ln2
    by_cases ha : accept n c = true
    · rw [skipAux, skipAux, if_pos ha, if_pos ha]
      exact ih (n + 1) _ _
    · rw [skipAux, skipAux, if_neg ha, if_neg ha]
      exact ⟨rfl, VE.cons hc hve⟩
  | run hr1 hr2 hv1 hv2 hve ih =>
    rename_i r1 r2 xs' ys'
    intro n ln1 ln2
    obtain ⟨d1, t1, he1⟩ : ∃ d t, r1 = d :: t := by
      cases r1 with
      | nil => exact absurd rfl hr1
      | cons a b => exact ⟨a, b, rfl⟩
    obtain ⟨d2, t2, he2⟩ : ∃ d t, r2 = d :: t := by
      cases r2 with
      | nil => exact absurd rfl hr2
      | cons a b => exact ⟨a, b, rfl⟩
    have hd1 : isVoid d1 = true := hv1 d1 (he1 ▸ List.mem_cons_self _ _)
    have hd2 : isVoid d2 = true := hv2 d2 (he2 ▸ List.mem_cons_self _ _)
    have ha1 : ¬ accept n d1 = true := fun hx => by simp [hacc _ _ hx] at hd1
    have ha2 : ¬ accept n d2 = true := fun hx => by simp [hacc _ _ hx] at hd2
    rw [he1, he2, List.cons_append, List.cons_append, skipAux, skipAux,
      if_neg ha1, if_neg ha2]
    refine ⟨rfl, ?_⟩
    rw [← List.cons_append, ← List.cons_append, ← he1, ← he2]
    exact VE.run hr1 hr2 hv1 hv2 hve

theorem read_val (accept : Nat → Char → Bool) (s : PState) :
    (read accept s).1 =
      if (readAux accept 0 s.input s.line []).2.1 = 0 then none
      else some (String.mk (readAux accept 0 s.input s.line []).1) := by
  simp only [read]
  by_cases hz : (readAux accept 0 s.input s.line []).2.1 = 0 <;> simp [hz]

theorem read_state (accept : Nat → Char → Bool) (s : PState) :
    (read accept s).2 = (readAux accept 0 s.input s.line []).2.2 := by
  simp only [read]
  by_cases hz : (readAux accept 0 s.input s.line []).2.1 = 0 <;> simp [hz]

theorem read_sim {accept : Nat → Char → Bool}
    (hacc : ∀ i c, accept i c = true → isVoid c = false)
    {s1 s2 : PState} (hve : VE s1.input s2.input) :
    (read accept s1).1 = (read accept s2).1 ∧
      VE (read accept s1).2.input (read accept s2).2.input := by
  obtain ⟨hv, hcnt, hinp⟩ := readAux_sim hacc hve 0 s1.line s2.line []
  constructor
  · rw [read_val, read_val, hcnt, hv]
  · rw [read_state, read_state]
    exact hinp

/-!  Length bounds: every primitive only consumes input. -/

theorem skipAux_le (accept : Nat → Char → Bool) :
    ∀ (l : List Char) (n ln : Nat), (skipAux accept n l ln).2.input.length ≤ l.length := by
  intro l
  induction l with
  | nil => intro n ln; simp [skipAux]
  | cons c rest ih =>
    intro n ln
    by_cases ha : accept n c = true
    · rw [skipAux, if_pos ha]
      exact le_trans (ih _ _) (by simp)
    · rw [skipAux, if_neg ha]

theorem skip_void_le (s : PState) : (skip_void s).input.length ≤ s.input.length :=
  skipAux_le _ s.input 0 s.line

theorem readAux_le (accept : Nat → Char → Bool) :
    ∀ (l : List Char) (n ln : Nat) (acc : List Char),
      (readAux accept n l ln acc).2.2.input.length ≤ l.length := by
  intro l
  induction l with
  | nil => intro n ln acc; simp [readAux]
  | cons c rest ih =>
    intro n ln acc
    by_cases ha : accept n c = true
    · rw [readAux, if_pos ha]
      exact le_trans (ih _ _ _) (by simp)
    · rw [readAux, if_neg ha]

theorem read_le (accept : Nat → Char → Bool) (s : PState) :
    (read accept s).2.input.length ≤ s.input.length := by
  rw [read_state]
  exact readAux_le accept s.input 0 s.line []

theorem read_some_lt (accept : Nat → Char → Bool) (s : PState) {t : String}
    (h : (read accept s).1 = some t) :
    (read accept s).2.input.length < s.input.length := by
  have hz : ¬ (readAux accept 0 s.input s.line []).2.1 = 0 := by
    intro hz
    rw [read_val, if_pos hz] at h
    cases h
  rw [read_state]
  cases hl : s.input with
  | nil =>
    exfalso
    rw [hl] at hz
    exact hz rfl
  | cons c rest =>
    by_cases ha : accept 0 c = true
    · rw [readAux, if_pos ha]
      exact lt_of_le_of_lt (readAux_le accept rest 1 _ [c]) (by simp)
    · exfalso
      have hc0 : (readAux accept 0 (c :: rest) s.line []).2.1 = 0 := by
        rw [readAux, if_neg ha]
      rw [hl] at hz
      exact hz hc0

/-!  Eliminators for successful outcome chains. -/

theorem liftE_ok_elim {α β : Type} {e : Except Error (α × PState)}
    {k : α → PState → POutcome β} {v : β} {s' : PState}
    (h : liftE e k = .ok v s') : ∃ a s0, e = .ok (a, s0) ∧ k a s0 = .ok v s' := by
  cases e with
  | error e => cases h
  | ok p =>
    obtain ⟨a, s0⟩ := p
    exact ⟨a, s0, rfl, h⟩

theorem obind_ok_elim {α β : Type} {o : POutcome α} {k : α → PState → POutcome β}
    {v : β} {s' : PState}
    (h : obind o k = .ok v s') : ∃ a s0, o = .ok a s0 ∧ k a s0 = .ok v s' := by
  cases o with
  | err e => cases h
  | diverge => cases h
  | ok a s0 => exact ⟨a, s0, rfl, h⟩

/-!  Value/state characterizations of the token readers. -/

theorem read_token_val (s : PState) : (read_token s).1 = (read tokenAccept s).1 := rfl

theorem read_token_state (s : PState) :
    (read_token s).2 = skip_void (read tokenAccept s).2 := rfl

theorem read_natural_val (s : PState) :
    (read_natural s).1 =
      match (read (fun _ c => isDigitChar c) s).1 with
      | some number => fromStrRadixNat number.toList
      | none => none := rfl

theorem read_natural_state (s : PState) :
    (read_natural s).2 = skip_void (read (fun _ c => isDigitChar c) s).2 := rfl

theorem read_real_val (s : PState) :
    (read_real s).1 =
      match (read realAccept s).1 with
      | some number => fromStrCommon number.toList
      | none => none := rfl

theorem read_real_state (s : PState) :
    (read_real s).2 = skip_void (read realAccept s).2 := rfl

theorem skip_val (accept : Nat → Char → Bool) (s : PState) :
    (skip accept s).1 = (skipAux accept 0 s.input s.line).1 := rfl

theorem skip_state (accept : Nat → Char → Bool) (s : PState) :
    (skip accept s).2 = (skipAux accept 0 s.input s.line).2 := rfl

theorem skip_str_eq (expected : String) (s : PState) :
    skip_str expected s =
      if (skip (fun i c => decide (i < expected.length) &&
          (c == expected.toList.getD i ' ')) s).1 ≠ expected.length then
        .error ⟨(skip (fun i c => decide (i < expected.length) &&
          (c == expected.toList.getD i ' ')) s).2.line, "expected `" ++ expected ++ "`"⟩
      else .ok ((), skip_void (skip (fun i c => decide (i < expected.length) &&
        (c == expected.toList.getD i ' ')) s).2) := rfl

theorem skip_comment_eq (s : PState) :
    skip_comment s =
      if (skip (fun i c => (decide (i = 0) && (c == '#')) ||
          (decide (0 < i) && (c == '-'))) s).1 < 2 then
        .error ⟨(skip (fun i c => (decide (i = 0) && (c == '#')) ||
          (decide (0 < i) && (c == '-'))) s).2.line, "expected a comment line"⟩
      else .ok ((), skip_void (skip (fun i c => (decide (i = 0) && (c == '#')) ||
        (decide (0 < i) && (c == '-'))) s).2) := rfl

/-!  Simulations of the token readers over `Sync` states. -/

theorem read_token_sim {s1 s2 : PState} (h : Sync s1 s2) :
    (read_token s1).1 = (read_token s2).1 ∧ Sync (read_token s1).2 (read_token s2).2 := by
  obtain ⟨hve, _, _⟩ := h
  obtain ⟨hv, hinp⟩ := read_sim (fun i c hx => tokenAccept_not_void hx) hve
  rw [read_token_val, read_token_val, read_token_state, read_token_state]
  exact ⟨hv, skip_void_sync hinp⟩

theorem read_natural_sim {s1 s2 : PState} (h : Sync s1 s2) :
    (read_natural s1).1 = (read_natural s2).1 ∧
      Sync (read_natural s1).2 (read_natural s2).2 := by
  obtain ⟨hve, _, _⟩ := h
  obtain ⟨hv, hinp⟩ := read_sim (fun i c hx => digit_not_void hx) hve
  rw [read_natural_val, read_natural_val, read_natural_state, read_natural_state, hv]
  exact ⟨rfl, skip_void_sync hinp⟩

theorem read_real_sim {s1 s2 : PState} (h : Sync s1 s2) :
    (read_real s1).1 = (read_real s2).1 ∧ Sync (read_real s1).2 (read_real s2).2 := by
  obtain ⟨hve, _, _⟩ := h
  obtain ⟨hv, hinp⟩ := read_sim (fun i c hx => realAccept_not_void hx) hve
  rw [read_real_val, read_real_val, read_real_state, read_real_state, hv]
  exact ⟨rfl, skip_void_sync hinp⟩

theorem read_id_sim {s1 s2 : PState} (h : Sync s1 s2) :
    (read_id s1).1 = (read_id s2).1 ∧ Sync (read_id s1).2 (read_id s2).2 := by
  obtain ⟨hv, hsync⟩ := read_token_sim h
  unfold read_id
  cases h1 : read_token s1 with
  | mk r1 t1 =>
    cases h2 : read_token s2 with
    | mk r2 t2 =>
      rw [h1, h2] at hv hsync
      simp only at hv hsync
      subst hv
      cases r1 with
      | none => exact ⟨rfl, hsync⟩
      | some tok => exact ⟨rfl, hsync⟩

/-!  Success simulations of the `get_*` wrappers and the skip primitives. -/

theorem get_token_sim {s1 s2 s1' : PState} {t : String} (h : Sync s1 s2)
    (hok : get_token s1 = .ok (t, s1')) :
    ∃ s2', get_token s2 = .ok (t, s2') ∧ Sync s1' s2' := by
  obtain ⟨hv, hsync⟩ := read_token_sim h
  unfold get_token at hok ⊢
  cases h1 : read_token s1 with
  | mk r1 t1 =>
    cases h2 : read_token s2 with
    | mk r2 t2 =>
      rw [h1, h2] at hv hsync
      simp only at hv hsync
      subst hv
      rw [h1] at hok
      cases r1 with
      | none => cases hok
      | some tok =>
        cases hok
        exact ⟨t2, rfl, hsync⟩

theorem get_natural_sim {s1 s2 s1' : PState} {v : Nat} (h : Sync s1 s2)
    (hok : get_natural s1 = .ok (v, s1')) :
    ∃ s2', get_natural s2 = .ok (v, s2') ∧ Sync s1' s2' := by
  obtain ⟨hv, hsync⟩ := read_natural_sim h
  unfold get_natural at hok ⊢
  cases h1 : read_natural s1 with
  | mk r1 t1 =>
    cases h2 : read_natural s2 with
    | mk r2 t2 =>
      rw [h1, h2] at hv hsync
      simp only at hv hsync
      subst hv
      rw [h1] at hok
      cases r1 with
      | none => cases hok
      | some w =>
        cases hok
        exact ⟨t2, rfl, hsync⟩

theorem get_real_sim {s1 s2 s1' : PState} {v : ℚ} (h : Sync s1 s2)
    (hok : get_real s1 = .ok (v, s1')) :
    ∃ s2', get_real s2 = .ok (v, s2') ∧ Sync s1' s2' := by
  obtain ⟨hv, hsync⟩ := read_real_sim h
  unfold get_real at hok ⊢
  cases h1 : read_real s1 with
  | mk r1 t1 =>
    cases h2 : read_real s2 with
    | mk r2 t2 =>
      rw [h1, h2] at hv hsync
      simp only at hv hsync
      subst hv
      rw [h1] at hok
      cases r1 with
      | none => cases hok
      | some w =>
        cases hok
        exact ⟨t2, rfl, hsync⟩

theorem get_id_sim {s1 s2 s1' : PState} {v : Nat} (h : Sync s1 s2)
    (hok : get_id s1 = .ok (v, s1')) :
    ∃ s2', get_id s2 = .ok (v, s2') ∧ Sync s1' s2' := by
  obtain ⟨hv, hsync⟩ := read_id_sim h
  unfold get_id at hok ⊢
  cases h1 : read_id s1 with
  | mk r1 t1 =>
    cases h2 : read_id s2 with
    | mk r2 t2 =>
      rw [h1, h2] at hv hsync
      simp only at hv hsync
      subst hv
      rw [h1] at hok
      cases r1 with
      | none => cases hok
      | some w =>
        cases hok
        exact ⟨t2, rfl, hsync⟩

theorem skip_char_sim {expected : Char} {s1 s2 s1' : PState} (h : Sync s1 s2)
    (hok : skip_char expected s1 = .ok ((), s1')) :
    ∃ s2', skip_char expected s2 = .ok ((), s2') ∧ Sync s1' s2' := by
  obtain ⟨hve, h1, h2⟩ := h
  rcases VE_nonvoid_destruct hve h1 with ⟨hx, hy⟩ | ⟨c, xs', ys', hc, hx, hy, hve'⟩
  · exfalso
    obtain ⟨inp1, ln1⟩ := s1
    simp only at hx
    subst hx
    cases hok
  · obtain ⟨inp1, ln1⟩ := s1
    obtain ⟨inp2, ln2⟩ := s2
    simp only at hx hy
    subst hx
    subst hy
    unfold skip_char at hok ⊢
    simp only [next] at hok ⊢
    by_cases hce : c = expected
    · rw [if_pos hce] at hok ⊢
      cases hok
      exact ⟨_, rfl, skip_void_sync hve'⟩
    · rw [if_neg hce] at hok
      cases hok

theorem getD_mem {l : List Char} {i : Nat} {d : Char} (h : i < l.length) : l.getD i d ∈ l := by
  induction l generalizing i with
  | nil => simp at h
  | cons a t ih =>
    cases i with
    | zero => exact List.mem_cons_self _ _
    | succ j =>
      have : t.getD j d ∈ t := ih (by simpa using h)
      exact List.mem_cons_of_mem _ this

theorem skip_str_sim {expected : String} (hexp : ∀ c ∈ expected.toList, isVoid c = false)
    {s1 s2 s1' : PState} (h : Sync s1 s2) (hok : skip_str expected s1 = .ok ((), s1')) :
    ∃ s2', skip_str expected s2 = .ok ((), s2') ∧ Sync s1' s2' := by
  obtain ⟨hve, _, _⟩ := h
  have hacc : ∀ i c,
      (decide (i < expected.length) && (c == expected.toList.getD i ' ')) = true →
      isVoid c = false := by
    intro i c hx
    simp only [Bool.and_eq_true, decide_eq_true_eq, beq_iff_eq] at hx
    obtain ⟨hi, hcf⟩ := hx
    subst hcf
    have hi' : i < expected.toList.length := hi
    exact hexp _ (getD_mem hi')
  obtain ⟨hcnt, hinp⟩ := skipAux_sim hacc hve 0 s1.line s2.line
  rw [skip_str_eq] at hok
  rw [skip_str_eq]
  rw [skip_val, skip_state] at hok
  rw [skip_val, skip_state]
  rw [← hcnt]
  by_cases hlen : (skipAux (fun i c => decide (i < expected.length) &&
      (c == expected.toList.getD i ' ')) 0 s1.input s1.line).1 ≠ expected.length
  · rw [if_pos hlen] at hok
    cases hok
  · rw [if_neg hlen] at hok ⊢
    cases hok
    exact ⟨_, rfl, skip_void_sync hinp⟩

theorem skip_comment_sim {s1 s2 s1' : PState} (h : Sync s1 s2)
    (hok : skip_comment s1 = .ok ((), s1')) :
    ∃ s2', skip_comment s2 = .ok ((), s2') ∧ Sync s1' s2' := by
  obtain ⟨hve, _, _⟩ := h
  have hacc : ∀ i c,
      ((decide (i = 0) && (c == '#')) || (decide (0 < i) && (c == '-'))) = true →
      isVoid c = false := by
    intro i c hx
    simp only [Bool.or_eq_true, Bool.and_eq_true, decide_eq_true_eq, beq_iff_eq] at hx
    rcases hx with ⟨_, hcf⟩ | ⟨_, hcf⟩ <;> subst hcf <;> decide
  obtain ⟨hcnt, hinp⟩ := skipAux_sim hacc hve 0 s1.line s2.line
  rw [skip_comment_eq] at hok
  rw [skip_comment_eq]
  rw [skip_val, skip_state] at hok
  rw [skip_val, skip_state]
  rw [← hcnt]
  by_cases hlen : (skipAux (fun i c => (decide (i = 0) && (c == '#')) ||
      (decide (0 < i) && (c == '-'))) 0 s1.input s1.line).1 < 2
  · rw [if_pos hlen] at hok
    cases hok
  · rw [if_neg hlen] at hok ⊢
    cases hok
    exact ⟨_, rfl, skip_void_sync hinp⟩

/-!  Length bounds for the readers and the grammar routines: every operation
only consumes input, and the productive ones consume at least one
character. -/

theorem read_token_le (s : PState) : (read_token s).2.input.length ≤ s.input.length := by
  rw [read_token_state]
  exact le_trans (skip_void_le _) (read_le _ _)

theorem read_token_some_lt {s : PState} {t : String} {s' : PState}
    (h : read_token s = (some t, s')) : s'.input.length < s.input.length := by
  have hv : (read_token s).1 = some t := by rw [h]
  have hs : (read_token s).2 = s' := by rw [h]
  rw [read_token_val] at hv
  rw [read_token_state] at hs
  rw [← hs]
  exact lt_of_le_of_lt (skip_void_le _) (read_some_lt _ _ hv)

theorem get_token_ok_lt {s : PState} {t : String} {s' : PState}
    (h : get_token s = .ok (t, s')) : s'.input.length < s.input.length := by
  unfold get_token at h
  cases hrt : read_token s with
  | mk r st =>
    rw [hrt] at h
    cases r with
    | none => cases h
    | some tok =>
      cases h
      exact read_token_some_lt hrt

theorem get_natural_ok_le {s : PState} {v : Nat} {s' : PState}
    (h : get_natural s = .ok (v, s')) : s'.input.length ≤ s.input.length := by
  unfold get_natural at h
  cases hrt : read_natural s with
  | mk r st =>
    rw [hrt] at h
    cases r with
    | none => cases h
    | some w =>
      cases h
      have hs : (read_natural s).2 = s' := by rw [hrt]
      rw [← hs, read_natural_state]
      exact le_trans (skip_void_le _) (read_le _ _)

theorem get_real_ok_lt {s : PState} {v : ℚ} {s' : PState}
    (h : get_real s = .ok (v, s')) : s'.input.length < s.input.length := by
  unfold get_real at h
  cases hrt : read_real s with
  | mk r st =>
    rw [hrt] at h
    cases r with
    | none => cases h
    | some w =>
      cases h
      have hv : (read_real s).1 = some v := by rw [hrt]
      have hs : (read_real s).2 = s' := by rw [hrt]
      rw [read_real_val] at hv
      rw [read_real_state] at hs
      cases hr : (read realAccept s).1 with
      | none => rw [hr] at hv; cases hv
      | some number =>
        rw [← hs]
        exact lt_of_le_of_lt (skip_void_le _) (read_some_lt _ _ hr)

theorem read_id_state (s : PState) : (read_id s).2 = (read_token s).2 := by
  unfold read_id
  cases h : read_token s with
  | mk r st => cases r <;> rfl

theorem get_id_ok_le {s : PState} {v : Nat} {s' : PState}
    (h : get_id s = .ok (v, s')) : s'.input.length ≤ s.input.length := by
  unfold get_id at h
  cases hrt : read_id s with
  | mk r st =>
    rw [hrt] at h
    cases r with
    | none => cases h
    | some w =>
      cases h
      have hs : (read_id s).2 = s' := by rw [hrt]
      rw [← hs, read_id_state]
      exact read_token_le s

theorem skip_char_ok_lt {c : Char} {s s' : PState} (h : skip_char c s = .ok ((), s')) :
    s'.input.length < s.input.length := by
  obtain ⟨inp, ln⟩ := s
  cases inp with
  | nil => cases h
  | cons d rest =>
    unfold skip_char at h
    simp only [next] at h
    by_cases hd : d = c
    · rw [if_pos hd] at h
      cases h
      exact lt_of_le_of_lt (skip_void_le _) (by simp)
    · rw [if_neg hd] at h
      cases h

theorem skip_str_ok_le {expected : String} {s s' : PState}
    (h : skip_str expected s = .ok ((), s')) : s'.input.length ≤ s.input.length := by
  rw [skip_str_eq] at h
  by_cases hlen : (skip (fun i c => decide (i < expected.length) &&
      (c == expected.toList.getD i ' ')) s).1 ≠ expected.length
  · rw [if_pos hlen] at h
    cases h
  · rw [if_neg hlen] at h
    cases h
    refine le_trans (skip_void_le _) ?_
    rw [skip_state]
    exact skipAux_le _ _ _ _

theorem skip_comment_ok_le {s s' : PState}
    (h : skip_comment s = .ok ((), s')) : s'.input.length ≤ s.input.length := by
  rw [skip_comment_eq] at h
  by_cases hlen : (skip (fun i c => (decide (i = 0) && (c == '#')) ||
      (decide (0 < i) && (c == '-'))) s).1 < 2
  · rw [if_pos hlen] at h
    cases h
  · rw [if_neg hlen] at h
    cases h
    refine le_trans (skip_void_le _) ?_
    rw [skip_state]
    exact skipAux_le _ _ _ _

theorem readRow_ok_le {cols : List Column} {s : PState} {cols' s'}
    (h : readRow cols s = .ok (cols', s')) : s'.input.length ≤ s.input.length := by
  induction cols generalizing s cols' with
  | nil =>
    unfold readRow at h
    cases h
    exact le_refl _
  | cons col rest ih =>
    unfold readRow at h
    split at h
    · cases h
    · split at h
      · cases h
      · cases h
        rename_i v s1 hg cols1 s2 hr
        exact le_trans (ih hr) (le_of_lt (get_real_ok_lt hg))

theorem readRow_ok_lt {col : Column} {cols : List Column} {s : PState} {cols' s'}
    (h : readRow (col :: cols) s = .ok (cols', s')) : s'.input.length < s.input.length := by
  unfold readRow at h
  split at h
  · cases h
  · split at h
    · cases h
    · cases h
      rename_i v s1 hg cols1 s2 hr
      exact lt_of_le_of_lt (readRow_ok_le hr) (get_real_ok_lt hg)

theorem headerAttrs_ok_le {names : List String} {t : Table} {s : PState} {t' s'}
    (h : headerAttrs names t s = .ok (t', s')) : s'.input.length ≤ s.input.length := by
  induction names generalizing t s with
  | nil =>
    unfold headerAttrs at h
    cases h
    exact le_refl _
  | cons n ns ih =>
    unfold headerAttrs at h
    split at h
    · cases h
    · rename_i v s1 hg
      exact le_trans (ih h) (le_of_lt (get_real_ok_lt hg))

theorem tokenLoopF_ok_le {fuel : Nat} {acc names : List String} {s s' : PState}
    (h : tokenLoopF fuel acc s = .ok names s') : s'.input.length ≤ s.input.length := by
  induction fuel generalizing acc s with
  | zero => simp [tokenLoopF] at h
  | succ f ih =>
    unfold tokenLoopF at h
    cases hrt : read_token s with
    | mk r st =>
      rw [hrt] at h
      cases r with
      | none =>
        cases h
        simpa [hrt] using read_token_le s
      | some tok =>
        exact le_trans (ih h) (le_of_lt (read_token_some_lt hrt))

theorem graphLoopF_ok_le {fuel : Nat} {g g' : Graph} {s s' : PState}
    (h : graphLoopF fuel g s = .ok g' s') : s'.input.length ≤ s.input.length := by
  induction fuel generalizing g s with
  | zero => simp [graphLoopF] at h
  | succ f ih =>
    unfold graphLoopF at h
    split at h
    · rename_i st heq
      cases h
      simpa [heq] using read_token_le s
    · rename_i tok st heq
      have hlt : st.input.length < s.input.length := read_token_some_lt heq
      split at h
      · obtain ⟨id, sa, hga, h⟩ := liftE_ok_elim h
        obtain ⟨u1, sb, hgb, h⟩ := liftE_ok_elim h
        obtain ⟨kind, sc, hgc, h⟩ := liftE_ok_elim h
        have ha := get_id_ok_le hga
        have hb := skip_str_ok_le hgb
        have hc := get_natural_ok_le hgc
        have hd := ih h
        omega
      · split at h
        · obtain ⟨id, sa, hga, h⟩ := liftE_ok_elim h
          obtain ⟨u1, sb, hgb, h⟩ := liftE_ok_elim h
          obtain ⟨fr, sc, hgc, h⟩ := liftE_ok_elim h
          obtain ⟨u2, sd, hgd, h⟩ := liftE_ok_elim h
          obtain ⟨toId, se, hge, h⟩ := liftE_ok_elim h
          obtain ⟨u3, sf, hgf, h⟩ := liftE_ok_elim h
          obtain ⟨kind, sg, hgg, h⟩ := liftE_ok_elim h
          have ha := get_id_ok_le hga
          have hb := skip_str_ok_le hgb
          have hc := get_id_ok_le hgc
          have hd := skip_str_ok_le hgd
          have he := get_id_ok_le hge
          have hf := skip_str_ok_le hgf
          have hg := get_natural_ok_le hgg
          have hh := ih h
          omega
        · split at h
          · obtain ⟨id, sa, hga, h⟩ := liftE_ok_elim h
            obtain ⟨u1, sb, hgb, h⟩ := liftE_ok_elim h
            obtain ⟨onId, sc, hgc, h⟩ := liftE_ok_elim h
            obtain ⟨u2, sd, hgd, h⟩ := liftE_ok_elim h
            obtain ⟨atVal, se, hge, h⟩ := liftE_ok_elim h
            have ha := get_id_ok_le hga
            have hb := skip_str_ok_le hgb
            have hc := get_id_ok_le hgc
            have hd := skip_str_ok_le hgd
            have he := get_natural_ok_le hge
            have hf := ih h
            omega
          · obtain ⟨value, sa, hga, h⟩ := liftE_ok_elim h
            have ha := get_natural_ok_le hga
            have hb := ih h
            omega

theorem rowLoopF_ok_le {fuel : Nat} {cols : List Column} {s : PState} {cols' s'}
    (h : rowLoopF fuel cols s = .ok cols' s') : s'.input.length ≤ s.input.length := by
  induction fuel generalizing cols s with
  | zero => simp [rowLoopF] at h
  | succ f ih =>
    unfold rowLoopF at h
    split at h
    · cases h
      exact le_refl _
    · cases h
      exact le_refl _
    · cases hr : readRow cols s with
      | error e =>
        rw [hr] at h
        cases h
      | ok p =>
        obtain ⟨cols1, s1⟩ := p
        rw [hr] at h
        have ha := readRow_ok_le hr
        have hb := ih h
        omega

theorem process_table_ok_le {name : String} {id : Nat} {s : PState} {t s'}
    (h : process_table name id s = .ok t s') : s'.input.length ≤ s.input.length := by
  unfold process_table at h
  obtain ⟨u1, s1, h1, h⟩ := liftE_ok_elim h
  obtain ⟨names, s2, h2, h⟩ := obind_ok_elim h
  obtain ⟨t1, s3, h3, h⟩ := liftE_ok_elim h
  obtain ⟨u4, s4, h4, h⟩ := liftE_ok_elim h
  obtain ⟨u5, s5, h5, h⟩ := liftE_ok_elim h
  obtain ⟨colNames, s6, h6, h⟩ := obind_ok_elim h
  obtain ⟨cols, s7, h7, h⟩ := obind_ok_elim h
  cases h
  have ha := skip_char_ok_lt h1
  have hb := tokenLoopF_ok_le h2
  have hc := headerAttrs_ok_le h3
  have hd := skip_comment_ok_le h4
  have he := skip_char_ok_lt h5
  have hf := tokenLoopF_ok_le h6
  have hg := rowLoopF_ok_le h7
  omega

theorem process_graph_ok_le {name : String} {id : Nat} {s : PState} {g s'}
    (h : process_graph name id s = .ok g s') : s'.input.length ≤ s.input.length := by
  unfold process_graph at h
  exact graphLoopF_ok_le h

theorem blockBody_ok_le {name : String} {id : Nat} {content : Content} {s : PState} {c' s'}
    (h : blockBody name id content s = .ok c' s') : s'.input.length ≤ s.input.length := by
  unfold blockBody at h
  split at h
  · obtain ⟨t, s1, h1, h⟩ := obind_ok_elim h
    cases h
    exact process_table_ok_le h1
  · obtain ⟨g, s1, h1, h⟩ := obind_ok_elim h
    cases h
    exact process_graph_ok_le h1

theorem process_block_ok_le {name : String} {id : Nat} {content : Content} {s : PState} {c' s'}
    (h : process_block name id content s = .ok c' s') : s'.input.length ≤ s.input.length := by
  unfold process_block at h
  obtain ⟨u1, s1, h1, h⟩ := liftE_ok_elim h
  obtain ⟨c1, s2, h2, h⟩ := obind_ok_elim h
  obtain ⟨u2, s3, h3, h⟩ := liftE_ok_elim h
  cases h
  have ha := skip_char_ok_lt h1
  have hb := blockBody_ok_le h2
  have hc := skip_char_ok_lt h3
  omega

theorem process_at_ok_lt {content : Content} {s : PState} {c' s'}
    (h : process_at content s = .ok c' s') : s'.input.length < s.input.length := by
  unfold process_at at h
  obtain ⟨u1, s1, h1, h⟩ := liftE_ok_elim h
  obtain ⟨name, s2, h2, h⟩ := liftE_ok_elim h
  obtain ⟨number, s3, h3, h⟩ := liftE_ok_elim h
  have ha := skip_char_ok_lt h1
  have hb := get_token_ok_lt h2
  have hc := get_natural_ok_le h3
  split at h
  · have := process_block_ok_le h
    omega
  · cases h
    omega

/-!  Step characterizations of the fuelled loops, and intro rules for
outcome chains. -/

theorem liftE_ok_intro {α β : Type} {e : Except Error (α × PState)}
    {k : α → PState → POutcome β} {a : α} {s0 : PState} {v : β} {s' : PState}
    (h1 : e = .ok (a, s0)) (h2 : k a s0 = .ok v s') : liftE e k = .ok v s' := by
  rw [h1]
  exact h2

theorem obind_ok_intro {α β : Type} {o : POutcome α} {k : α → PState → POutcome β}
    {a : α} {s0 : PState} {v : β} {s' : PState}
    (h1 : o = .ok a s0) (h2 : k a s0 = .ok v s') : obind o k = .ok v s' := by
  rw [h1]
  exact h2

theorem rowLoopF_step_close {f : Nat} {cols : List Column} {s : PState}
    (hh : s.input.head? = some '\x7d') : rowLoopF (f + 1) cols s = .ok cols s := by
  conv_lhs => rw [rowLoopF]
  rw [hh]
  rfl

theorem rowLoopF_step_end {f : Nat} {cols : List Column} {s : PState}
    (hh : s.input.head? = none) : rowLoopF (f + 1) cols s = .ok cols s := by
  conv_lhs => rw [rowLoopF]
  rw [hh]

theorem rowLoopF_step_other {f : Nat} {cols : List Column} {s : PState} {c : Char}
    (hh : s.input.head? = some c) (hne : ¬ c = '\x7d') :
    rowLoopF (f + 1) cols s =
      match readRow cols s with
      | .error e => .err e
      | .ok (cols', s') => rowLoopF f cols' s' := by
  conv_lhs => rw [rowLoopF]
  rw [hh]
  split
  · rename_i heq
    exact absurd (by cases heq; rfl) hne
  · rename_i heq
    cases heq
  · rfl

theorem readRow_cons_intro {col : Column} {rest : List Column} {s : PState} {v : ℚ}
    {sa : PState} {cols2 : List Column} {sb : PState}
    (hg : get_real s = .ok (v, sa)) (hr : readRow rest sa = .ok (cols2, sb)) :
    readRow (col :: rest) s = .ok ({ col with data := col.data ++ [v] } :: cols2, sb) := by
  unfold readRow
  simp only [hg, hr]

/-!  Success simulations of the grammar routines: a successful run over one
input is matched, value for value, by a run over any whitespace-equivalent
input. -/

theorem readRow_sim : ∀ {cols : List Column} {s1 s2 s1' : PState} {cols' : List Column},
    Sync s1 s2 → readRow cols s1 = .ok (cols', s1') →
    ∃ s2', readRow cols s2 = .ok (cols', s2') ∧ Sync s1' s2' := by
  intro cols
  induction cols with
  | nil =>
    intro s1 s2 s1' cols' hsync h
    unfold readRow at h
    cases h
    exact ⟨s2, rfl, hsync⟩
  | cons col rest ih =>
    intro s1 s2 s1' cols' hsync h
    unfold readRow at h
    split at h
    · cases h
    · split at h
      · cases h
      · cases h
        rename_i v sa hg colsr sb hr
        obtain ⟨sa2, hg2, hsa⟩ := get_real_sim hsync hg
        obtain ⟨sb2, hr2, hsb⟩ := ih hsa hr
        exact ⟨sb2, readRow_cons_intro hg2 hr2, hsb⟩

theorem rowLoopF_sim : ∀ {f1 : Nat} {cols cols' : List Column} {s1 s2 s1' : PState},
    Sync s1 s2 → rowLoopF f1 cols s1 = .ok cols' s1' → ∀ f2, s2.input.length < f2 →
    ∃ s2', rowLoopF f2 cols s2 = .ok cols' s2' ∧ Sync s1' s2' := by
  intro f1
  induction f1 with
  | zero =>
    intro cols cols' s1 s2 s1' hsync h
    simp [rowLoopF] at h
  | succ f ih =>
    intro cols cols' s1 s2 s1' hsync h f2 hf2
    obtain ⟨g2, rfl⟩ : ∃ g2, f2 = g2 + 1 := ⟨f2 - 1, by omega⟩
    have hhead := sync_head_eq hsync
    rcases hh1 : s1.input.head? with _ | c
    · rw [rowLoopF_step_end hh1] at h
      cases h
      exact ⟨s2, rowLoopF_step_end (by rw [← hhead]; exact hh1), hsync⟩
    · by_cases hc : c = '\x7d'
      · subst hc
        rw [rowLoopF_step_close hh1] at h
        cases h
        exact ⟨s2, rowLoopF_step_close (by rw [← hhead]; exact hh1), hsync⟩
      · rw [rowLoopF_step_other hh1 hc] at h
        have hh2 : s2.input.head? = some c := by rw [← hhead]; exact hh1
        cases hr : readRow cols s1 with
        | error e =>
          rw [hr] at h
          cases h
        | ok p =>
          obtain ⟨cols1, s1b⟩ := p
          rw [hr] at h
          cases cols with
          | nil =>
            have hrr : readRow ([] : List Column) s1 = .ok ([], s1) := rfl
            rw [hrr] at hr
            cases hr
            exact ih hsync h (g2 + 1) hf2
          | cons col rest =>
            obtain ⟨s2b, hr2, hsync2⟩ := readRow_sim hsync hr
            have hlt2 : s2b.input.length < s2.input.length := readRow_ok_lt hr2
            obtain ⟨s2', hloop, hsync'⟩ := ih hsync2 h g2 (by omega)
            refine ⟨s2', ?_, hsync'⟩
            rw [rowLoopF_step_other hh2 hc, hr2]
            exact hloop

theorem tokenLoopF_sim : ∀ {f1 : Nat} {acc names : List String} {s1 s2 s1' : PState},
    Sync s1 s2 → tokenLoopF f1 acc s1 = .ok names s1' → ∀ f2, s2.input.length < f2 →
    ∃ s2', tokenLoopF f2 acc s2 = .ok names s2' ∧ Sync s1' s2' := by
  intro f1
  induction f1 with
  | zero =>
    intro acc names s1 s2 s1' hsync h
    simp [tokenLoopF] at h
  | succ f ih =>
    intro acc names s1 s2 s1' hsync h f2 hf2
    obtain ⟨g2, rfl⟩ : ∃ g2, f2 = g2 + 1 := ⟨f2 - 1, by omega⟩
    obtain ⟨hv, hsync'⟩ := read_token_sim hsync
    unfold tokenLoopF at h ⊢
    cases h1 : read_token s1 with
    | mk r1 t1 =>
      cases h2 : read_token s2 with
      | mk r2 t2 =>
        rw [h1] at h
        rw [h1, h2] at hv hsync'
        simp only at hv hsync'
        subst hv
        cases r1 with
        | none =>
          cases h
          exact ⟨t2, rfl, hsync'⟩
        | some tok =>
          have hlt : t2.input.length < s2.input.length := read_token_some_lt h2
          obtain ⟨s2', hloop, hs'⟩ := ih hsync' h g2 (by omega)
          exact ⟨s2', hloop, hs'⟩

theorem headerAttrs_sim : ∀ {names : List String} {t : Table} {s1 s2 s1' : PState}
    {t' : Table}, Sync s1 s2 → headerAttrs names t s1 = .ok (t', s1') →
    ∃ s2', headerAttrs names t s2 = .ok (t', s2') ∧ Sync s1' s2' := by
  intro names
  induction names with
  | nil =>
    intro t s1 s2 s1' t' hsync h
    unfold headerAttrs at h ⊢
    cases h
    exact ⟨s2, rfl, hsync⟩
  | cons n ns ih =>
    intro t s1 s2 s1' t' hsync h
    unfold headerAttrs at h ⊢
    split at h
    · cases h
    · rename_i v sa hg
      obtain ⟨sa2, hg2, hsa⟩ := get_real_sim hsync hg
      obtain ⟨s2', hh2, hs'⟩ := ih hsa h
      refine ⟨s2', ?_, hs'⟩
      simp only [hg2]
      exact hh2

/-!  Step characterizations of the graph loop and the top-level loop. -/

theorem graphLoopF_step_exit {f : Nat} {g : Graph} {s t : PState}
    (hrt : read_token s = (none, t)) : graphLoopF (f + 1) g s = .ok g t := by
  conv_lhs => rw [graphLoopF]
  rw [hrt]

theorem graphLoopF_step_task {f : Nat} {g : Graph} {s t : PState}
    (hrt : read_token s = (some "TASK", t)) :
    graphLoopF (f + 1) g s =
      (liftE (get_id t) fun id s1 =>
       liftE (skip_str "TYPE" s1) fun _ s2 =>
       liftE (get_natural s2) fun kind s3 =>
       graphLoopF f { g with tasks := g.tasks ++ [⟨id, kind⟩] } s3) := by
  conv_lhs => rw [graphLoopF]
  rw [hrt]
  rfl

theorem graphLoopF_step_arc {f : Nat} {g : Graph} {s t : PState}
    (hrt : read_token s = (some "ARC", t)) :
    graphLoopF (f + 1) g s =
      (liftE (get_id t) fun id s1 =>
       liftE (skip_str "FROM" s1) fun _ s2 =>
       liftE (get_id s2) fun fromId s3 =>
       liftE (skip_str "TO" s3) fun _ s4 =>
       liftE (get_id s4) fun toId s5 =>
       liftE (skip_str "TYPE" s5) fun _ s6 =>
       liftE (get_natural s6) fun kind s7 =>
       graphLoopF f { g with arcs := g.arcs ++ [⟨id, fromId, toId, kind⟩] } s7) := by
  conv_lhs => rw [graphLoopF]
  rw [hrt]
  rfl

theorem graphLoopF_step_deadline {f : Nat} {g : Graph} {s t : PState}
    (hrt : read_token s = (some "HARD_DEADLINE", t)) :
    graphLoopF (f + 1) g s =
      (liftE (get_id t) fun id s1 =>
       liftE (skip_str "ON" s1) fun _ s2 =>
       liftE (get_id s2) fun onId s3 =>
       liftE (skip_str "AT" s3) fun _ s4 =>
       liftE (get_natural s4) fun atVal s5 =>
       graphLoopF f { g with deadlines := g.deadlines ++ [⟨id, onId, atVal⟩] } s5) := by
  conv_lhs => rw [graphLoopF]
  rw [hrt]
  rfl

theorem graphLoopF_step_attr {f : Nat} {g : Graph} {s t : PState} {tok : String}
    (hrt : read_token s = (some tok, t)) (h1 : ¬ tok = "TASK") (h2 : ¬ tok = "ARC")
    (h3 : ¬ tok = "HARD_DEADLINE") :
    graphLoopF (f + 1) g s =
      (liftE (get_natural t) fun value s1 =>
       graphLoopF f { g with attributes := insertAttr g.attributes tok value } s1) := by
  conv_lhs => rw [graphLoopF]
  rw [hrt]
  show (if tok = "TASK" then
      (liftE (get_id t) fun id s1 =>
       liftE (skip_str "TYPE" s1) fun _ s2 =>
       liftE (get_natural s2) fun kind s3 =>
       graphLoopF f { g with tasks := g.tasks ++ [⟨id, kind⟩] } s3)
    else if tok = "ARC" then
      (liftE (get_id t) fun id s1 =>
       liftE (skip_str "FROM" s1) fun _ s2 =>
       liftE (get_id s2) fun fromId s3 =>
       liftE (skip_str "TO" s3) fun _ s4 =>
       liftE (get_id s4) fun toId s5 =>
       liftE (skip_str "TYPE" s5) fun _ s6 =>
       liftE (get_natural s6) fun kind s7 =>
       graphLoopF f { g with arcs := g.arcs ++ [⟨id, fromId, toId, kind⟩] } s7)
    else if tok = "HARD_DEADLINE" then
      (liftE (get_id t) fun id s1 =>
       liftE (skip_str "ON" s1) fun _ s2 =>
       liftE (get_id s2) fun onId s3 =>
       liftE (skip_str "AT" s3) fun _ s4 =>
       liftE (get_natural s4) fun atVal s5 =>
       graphLoopF f { g with deadlines := g.deadlines ++ [⟨id, onId, atVal⟩] } s5)
    else
      (liftE (get_natural t) fun value s1 =>
       graphLoopF f { g with attributes := insertAttr g.attributes tok value } s1)) = _
  rw [if_neg h1, if_neg h2, if_neg h3]

theorem processF_step_end {f : Nat} {content : Content} {s : PState}
    (hh : s.input.head? = none) : processF (f + 1) content s = .ok content s := by
  conv_lhs => rw [processF]
  rw [hh]

theorem processF_step_at {f : Nat} {content : Content} {s : PState}
    (hh : s.input.head? = some '@') :
    processF (f + 1) content s =
      obind (process_at content s) fun content' s' => processF f content' s' := by
  conv_lhs => rw [processF]
  rw [hh]
  rfl

theorem processF_step_err {f : Nat} {content : Content} {s : PState} {c : Char}
    (hh : s.input.head? = some c) (hc : ¬ c = '@') :
    processF (f + 1) content s = .err ⟨s.line, "found an unknown statement"⟩ := by
  conv_lhs => rw [processF]
  rw [hh]
  split
  · rename_i heq
    injection heq with h0
    exact absurd h0 hc
  · rfl
  · rename_i heq
    exact absurd heq (by simp)

/-!  Success simulations of the graph loop and the block/statement levels. -/

theorem graphLoopF_sim : ∀ {f1 : Nat} {g g' : Graph} {s1 s2 s1' : PState},
    Sync s1 s2 → graphLoopF f1 g s1 = .ok g' s1' → ∀ f2, s2.input.length < f2 →
    ∃ s2', graphLoopF f2 g s2 = .ok g' s2' ∧ Sync s1' s2' := by
  intro f1
  induction f1 with
  | zero =>
    intro g g' s1 s2 s1' hsync h
    simp [graphLoopF] at h
  | succ f ih =>
    intro g g' s1 s2 s1' hsync h f2 hf2
    obtain ⟨g2f, rfl⟩ : ∃ gg, f2 = gg + 1 := ⟨f2 - 1, by omega⟩
    obtain ⟨hv, hsync'⟩ := read_token_sim hsync
    cases h1 : read_token s1 with
    | mk r1 t1 =>
      cases h2 : read_token s2 with
      | mk r2 t2 =>
        rw [h1, h2] at hv hsync'
        simp only at hv hsync'
        subst hv
        cases r1 with
        | none =>
          rw [graphLoopF_step_exit h1] at h
          cases h
          exact ⟨t2, graphLoopF_step_exit h2, hsync'⟩
        | some tok =>
          have hlt : t2.input.length < s2.input.length := read_token_some_lt h2
          by_cases hb1 : tok = "TASK"
          · subst hb1
            rw [graphLoopF_step_task h1] at h
            obtain ⟨id, sa, hga, h⟩ := liftE_ok_elim h
            obtain ⟨u1, sb, hgb, h⟩ := liftE_ok_elim h
            obtain ⟨kind, sc, hgc, h⟩ := liftE_ok_elim h
            obtain ⟨sa2, hga2, hsa⟩ := get_id_sim hsync' hga
            obtain ⟨sb2, hgb2, hsb⟩ := skip_str_sim (by decide) hsa hgb
            obtain ⟨sc2, hgc2, hsc⟩ := get_natural_sim hsb hgc
            have l1 := get_id_ok_le hga2
            have l2 := skip_str_ok_le hgb2
            have l3 := get_natural_ok_le hgc2
            obtain ⟨s2', hloop, hs'⟩ := ih hsc h g2f (by omega)
            refine ⟨s2', ?_, hs'⟩
            rw [graphLoopF_step_task h2]
            exact liftE_ok_intro hga2 (liftE_ok_intro hgb2 (liftE_ok_intro hgc2 hloop))
          · by_cases hb2 : tok = "ARC"
            · subst hb2
              rw [graphLoopF_step_arc h1] at h
              obtain ⟨id, sa, hga, h⟩ := liftE_ok_elim h
              obtain ⟨u1, sb, hgb, h⟩ := liftE_ok_elim h
              obtain ⟨fr, sc, hgc, h⟩ := liftE_ok_elim h
              obtain ⟨u2, sd, hgd, h⟩ := liftE_ok_elim h
              obtain ⟨toId, se, hge, h⟩ := liftE_ok_elim h
              obtain ⟨u3, sf, hgf, h⟩ := liftE_ok_elim h
              obtain ⟨kind, sg, hgg, h⟩ := liftE_ok_elim h
              obtain ⟨sa2, hga2, hsa⟩ := get_id_sim hsync' hga
              obtain ⟨sb2, hgb2, hsb⟩ := skip_str_sim (by decide) hsa hgb
              obtain ⟨sc2, hgc2, hsc⟩ := get_id_sim hsb hgc
              obtain ⟨sd2, hgd2, hsd⟩ := skip_str_sim (by decide) hsc hgd
              obtain ⟨se2, hge2, hse⟩ := get_id_sim hsd hge
              obtain ⟨sf2, hgf2, hsf⟩ := skip_str_sim (by decide) hse hgf
              obtain ⟨sg2, hgg2, hsg⟩ := get_natural_sim hsf hgg
              have l1 := get_id_ok_le hga2
              have l2 := skip_str_ok_le hgb2
              have l3 := get_id_ok_le hgc2
              have l4 := skip_str_ok_le hgd2
              have l5 := get_id_ok_le hge2
              have l6 := skip_str_ok_le hgf2
              have l7 := get_natural_ok_le hgg2
              obtain ⟨s2', hloop, hs'⟩ := ih hsg h g2f (by omega)
              refine ⟨s2', ?_, hs'⟩
              rw [graphLoopF_step_arc h2]
              exact liftE_ok_intro hga2 (liftE_ok_intro hgb2 (liftE_ok_intro hgc2
                (liftE_ok_intro hgd2 (liftE_ok_intro hge2 (liftE_ok_intro hgf2
                  (liftE_ok_intro hgg2 hloop))))))
            · by_cases hb3 : tok = "HARD_DEADLINE"
              · subst hb3
                rw [graphLoopF_step_deadline h1] at h
                obtain ⟨id, sa, hga, h⟩ := liftE_ok_elim h
                obtain ⟨u1, sb, hgb, h⟩ := liftE_ok_elim h
                obtain ⟨onId, sc, hgc, h⟩ := liftE_ok_elim h
                obtain ⟨u2, sd, hgd, h⟩ := liftE_ok_elim h
                obtain ⟨atVal, se, hge, h⟩ := liftE_ok_elim h
                obtain ⟨sa2, hga2, hsa⟩ := get_id_sim hsync' hga
                obtain ⟨sb2, hgb2, hsb⟩ := skip_str_sim (by decide) hsa hgb
                obtain ⟨sc2, hgc2, hsc⟩ := get_id_sim hsb hgc
                obtain ⟨sd2, hgd2, hsd⟩ := skip_str_sim (by decide) hsc hgd
                obtain ⟨se2, hge2, hse⟩ := get_natural_sim hsd hge
                have l1 := get_id_ok_le hga2
                have l2 := skip_str_ok_le hgb2
                have l3 := get_id_ok_le hgc2
                have l4 := skip_str_ok_le hgd2
                have l5 := get_natural_ok_le hge2
                obtain ⟨s2', hloop, hs'⟩ := ih hse h g2f (by omega)
                refine ⟨s2', ?_, hs'⟩
                rw [graphLoopF_step_deadline h2]
                exact liftE_ok_intro hga2 (liftE_ok_intro hgb2 (liftE_ok_intro hgc2
                  (liftE_ok_intro hgd2 (liftE_ok_intro hge2 hloop))))
              · rw [graphLoopF_step_attr h1 hb1 hb2 hb3] at h
                obtain ⟨value, sa, hga, h⟩ := liftE_ok_elim h
                obtain ⟨sa2, hga2, hsa⟩ := get_natural_sim hsync' hga
                have l1 := get_natural_ok_le hga2
                obtain ⟨s2', hloop, hs'⟩ := ih hsa h g2f (by omega)
                refine ⟨s2', ?_, hs'⟩
                rw [graphLoopF_step_attr h2 hb1 hb2 hb3]
                exact liftE_ok_intro hga2 hloop

theorem process_graph_sim {name : String} {id : Nat} {s1 s2 s1' : PState} {g : Graph}
    (hsync : Sync s1 s2) (h : process_graph name id s1 = .ok g s1') :
    ∃ s2', process_graph name id s2 = .ok g s2' ∧ Sync s1' s2' := by
  unfold process_graph at h ⊢
  exact graphLoopF_sim hsync h (s2.input.length + 1) (by omega)

theorem process_table_sim {name : String} {id : Nat} {s1 s2 s1' : PState} {t : Table}
    (hsync : Sync s1 s2) (h : process_table name id s1 = .ok t s1') :
    ∃ s2', process_table name id s2 = .ok t s2' ∧ Sync s1' s2' := by
  unfold process_table at h ⊢
  obtain ⟨u1, sa, h1, h⟩ := liftE_ok_elim h
  obtain ⟨names, sb, h2, h⟩ := obind_ok_elim h
  obtain ⟨t1, sc, h3, h⟩ := liftE_ok_elim h
  obtain ⟨u4, sd, h4, h⟩ := liftE_ok_elim h
  obtain ⟨u5, se, h5, h⟩ := liftE_ok_elim h
  obtain ⟨colNames, sf, h6, h⟩ := obind_ok_elim h
  obtain ⟨cols, sg, h7, h⟩ := obind_ok_elim h
  cases h
  obtain ⟨sa2, h12, hsa⟩ := skip_char_sim hsync h1
  obtain ⟨sb2, h22, hsb⟩ := tokenLoopF_sim hsa h2 (sa2.input.length + 1) (by omega)
  obtain ⟨sc2, h32, hsc⟩ := headerAttrs_sim hsb h3
  obtain ⟨sd2, h42, hsd⟩ := skip_comment_sim hsc h4
  obtain ⟨se2, h52, hse⟩ := skip_char_sim hsd h5
  obtain ⟨sf2, h62, hsf⟩ := tokenLoopF_sim hse h6 (se2.input.length + 1) (by omega)
  obtain ⟨sg2, h72, hsg⟩ := rowLoopF_sim hsf h7 (sf2.input.length + 1) (by omega)
  refine ⟨sg2, ?_, hsg⟩
  exact liftE_ok_intro h12 (obind_ok_intro h22 (liftE_ok_intro h32 (liftE_ok_intro h42
    (liftE_ok_intro h52 (obind_ok_intro h62 (obind_ok_intro h72 rfl))))))

theorem blockBody_sim {name : String} {id : Nat} {content : Content}
    {s1 s2 s1' : PState} {c' : Content}
    (hsync : Sync s1 s2) (h : blockBody name id content s1 = .ok c' s1') :
    ∃ s2', blockBody name id content s2 = .ok c' s2' ∧ Sync s1' s2' := by
  have hhead := sync_head_eq hsync
  unfold blockBody at h ⊢
  rcases hh1 : s1.input.head? with _ | c
  · rw [hh1] at h
    have h' : (obind (process_graph name id s1) fun g s' =>
        POutcome.ok { content with graphs := content.graphs ++ [g] } s') = .ok c' s1' := h
    obtain ⟨g, sgr, hg, h''⟩ := obind_ok_elim h'
    cases h''
    obtain ⟨sg2, hg2, hs⟩ := process_graph_sim hsync hg
    have hh2 : s2.input.head? = none := by rw [← hhead]; exact hh1
    rw [hh2]
    exact ⟨sg2, obind_ok_intro hg2 rfl, hs⟩
  · by_cases hc : c = '#'
    · subst hc
      rw [hh1] at h
      have h' : (obind (process_table name id s1) fun t s' =>
          POutcome.ok { content with tables := content.tables ++ [t] } s') = .ok c' s1' := h
      obtain ⟨t, str, ht, h''⟩ := obind_ok_elim h'
      cases h''
      obtain ⟨st2, ht2, hs⟩ := process_table_sim hsync ht
      have hh2 : s2.input.head? = some '#' := by rw [← hhead]; exact hh1
      rw [hh2]
      exact ⟨st2, obind_ok_intro ht2 rfl, hs⟩
    · rw [hh1] at h
      split at h
      · rename_i heq
        injection heq with h0
        exact absurd h0 hc
      · obtain ⟨g, sgr, hg, h''⟩ := obind_ok_elim h
        cases h''
        obtain ⟨sg2, hg2, hs⟩ := process_graph_sim hsync hg
        have hh2 : s2.input.head? = some c := by rw [← hhead]; exact hh1
        rw [hh2]
        refine ⟨sg2, ?_, hs⟩
        split
        · rename_i heq
          injection heq with h0
          exact absurd h0 hc
        · exact obind_ok_intro hg2 rfl

theorem process_block_sim {name : String} {id : Nat} {content : Content}
    {s1 s2 s1' : PState} {c' : Content}
    (hsync : Sync s1 s2) (h : process_block name id content s1 = .ok c' s1') :
    ∃ s2', process_block name id content s2 = .ok c' s2' ∧ Sync s1' s2' := by
  unfold process_block at h ⊢
  obtain ⟨u1, sa, h1, h⟩ := liftE_ok_elim h
  obtain ⟨c1, sb, h2, h⟩ := obind_ok_elim h
  obtain ⟨u2, sc, h3, h⟩ := liftE_ok_elim h
  cases h
  obtain ⟨sa2, h12, hsa⟩ := skip_char_sim hsync h1
  obtain ⟨sb2, h22, hsb⟩ := blockBody_sim hsa h2
  obtain ⟨sc2, h32, hsc⟩ := skip_char_sim hsb h3
  exact ⟨sc2, liftE_ok_intro h12 (obind_ok_intro h22 (liftE_ok_intro h32 rfl)), hsc⟩

theorem process_at_sim {content : Content} {s1 s2 s1' : PState} {c' : Content}
    (hsync : Sync s1 s2) (h : process_at content s1 = .ok c' s1') :
    ∃ s2', process_at content s2 = .ok c' s2' ∧ Sync s1' s2' := by
  unfold process_at at h ⊢
  obtain ⟨u1, sa, h1, h⟩ := liftE_ok_elim h
  obtain ⟨name, sb, h2, h⟩ := liftE_ok_elim h
  obtain ⟨number, sc, h3, h⟩ := liftE_ok_elim h
  obtain ⟨sa2, h12, hsa⟩ := skip_char_sim hsync h1
  obtain ⟨sb2, h22, hsb⟩ := get_token_sim hsa h2
  obtain ⟨sc2, h32, hsc⟩ := get_natural_sim hsb h3
  have hhead := sync_head_eq hsc
  rcases hh1 : sc.input.head? with _ | c
  · rw [hh1] at h
    have h' : POutcome.ok
        { content with attributes := insertAttr content.attributes name number } sc =
        .ok c' s1' := h
    cases h'
    have hh2 : sc2.input.head? = none := by rw [← hhead]; exact hh1
    refine ⟨sc2, ?_, hsc⟩
    refine liftE_ok_intro h12 (liftE_ok_intro h22 (liftE_ok_intro h32 ?_))
    rw [hh2]
  · by_cases hc : c = '\x7b'
    · subst hc
      rw [hh1] at h
      have h' : process_block name number content sc = .ok c' s1' := h
      obtain ⟨sb', hb2, hs'⟩ := process_block_sim hsc h'
      have hh2 : sc2.input.head? = some '\x7b' := by rw [← hhead]; exact hh1
      refine ⟨sb', ?_, hs'⟩
      refine liftE_ok_intro h12 (liftE_ok_intro h22 (liftE_ok_intro h32 ?_))
      rw [hh2]
      exact hb2
    · rw [hh1] at h
      split at h
      · rename_i heq
        injection heq with h0
        exact absurd h0 hc
      · cases h
        have hh2 : sc2.input.head? = some c := by rw [← hhead]; exact hh1
        refine ⟨sc2, ?_, hsc⟩
        refine liftE_ok_intro h12 (liftE_ok_intro h22 (liftE_ok_intro h32 ?_))
        rw [hh2]
        split
        · rename_i heq
          injection heq with h0
          exact absurd h0 hc
        · rfl

theorem processF_sim : ∀ {f1 : Nat} {content c' : Content} {s1 s2 s1' : PState},
    Sync s1 s2 → processF f1 content s1 = .ok c' s1' → ∀ f2, s2.input.length < f2 →
    ∃ s2', processF f2 content s2 = .ok c' s2' ∧ Sync s1' s2' := by
  intro f1
  induction f1 with
  | zero =>
    intro content c' s1 s2 s1' hsync h
    simp [processF] at h
  | succ f ih =>
    intro content c' s1 s2 s1' hsync h f2 hf2
    obtain ⟨g2, rfl⟩ : ∃ gg, f2 = gg + 1 := ⟨f2 - 1, by omega⟩
    have hhead := sync_head_eq hsync
    rcases hh1 : s1.input.head? with _ | c
    · rw [processF_step_end hh1] at h
      cases h
      exact ⟨s2, processF_step_end (by rw [← hhead]; exact hh1), hsync⟩
    · by_cases hc : c = '@'
      · subst hc
        rw [processF_step_at hh1] at h
        obtain ⟨c1, s1b, hat, h⟩ := obind_ok_elim h
        obtain ⟨s2b, hat2, hsyncb⟩ := process_at_sim hsync hat
        have hlt : s2b.input.length < s2.input.length := process_at_ok_lt hat2
        obtain ⟨s2', hloop, hs'⟩ := ih hsyncb h g2 (by omega)
        refine ⟨s2', ?_, hs'⟩
        rw [processF_step_at (by rw [← hhead]; exact hh1)]
        exact obind_ok_intro hat2 hloop
      · rw [processF_step_err hh1 hc] at h
        cases h

theorem VE_nil_left {ys : List Char} (h : VE [] ys) : ys = [] := by
  rcases VE_nonvoid_destruct h (fun c hc => by cases hc) with ⟨_, hy⟩ | ⟨c, xs', ys', _, hx, _, _⟩
  · exact hy
  · exact absurd hx (by simp)

/-- C7: whitespace insensitivity.  If two documents are whitespace-equivalent
(each maximal whitespace run replaced by another nonempty whitespace run —
which covers collapsing a separating run to one space and inserting extra
blank lines into it) and the first parses successfully, the second parses
successfully to a structurally equal `Content`. -/
theorem claim7_whitespace_insensitive (i1 i2 : List Char) (c : Content) (s1' : PState)
    (hve : VE i1 i2) (h : process ⟨i1, 1⟩ = .ok c s1') :
    ∃ s2', process ⟨i2, 1⟩ = .ok c s2' := by
  unfold process at h ⊢
  cases i1 with
  | nil =>
    have hi2 : i2 = [] := VE_nil_left hve
    subst hi2
    exact ⟨s1', h⟩
  | cons c0 rest =>
    by_cases hat : c0 = '@'
    · subst hat
      rcases VE_nonvoid_destruct hve
          (fun x hx => by simp only [List.head?] at hx; cases hx; decide) with
        ⟨hx, _⟩ | ⟨d, xs', ys', hd, hx, hy, hve'⟩
      · exact absurd hx (by simp)
      · cases hx
        subst hy
        have hsync : Sync ⟨ '@' :: rest, 1⟩ ⟨ '@' :: ys', 1⟩ := by
          refine ⟨hve, ?_, ?_⟩ <;>
            · intro x hx2
              simp only [List.head?] at hx2
              cases hx2
              decide
        obtain ⟨s2', hp, _⟩ := processF_sim hsync h (( '@' :: ys').length + 1) (by simp)
        exact ⟨s2', hp⟩
    · exfalso
      rcases hl : ((c0 :: rest).length + 1) with _ | ff
      · simp at hl
      · rw [hl] at h
        rw [processF_step_err (by simp) hat] at h
        cases h

/-- C7 witness: the simulation applied to the document `@a 1` against the
variant whose separating space is replaced by a space-tab-newline-space
run. -/
theorem claim7_witness :
    ∃ s2', process (mkState "@a \t\n 1") = .ok ⟨[( "a", 1)], [], []⟩ s2' := by
  have hve : VE ( "@a 1".toList) ( "@a \t\n 1".toList) := by
    show VE ( '@' :: 'a' :: ([ ' '] ++ [ '1'])) ( '@' :: 'a' :: ([ ' ', '\t', '\n', ' '] ++ [ '1']))
    exact VE.cons (by decide) (VE.cons (by decide)
      (@VE.run [ ' '] [ ' ', '\t', '\n', ' '] [ '1'] [ '1'] (by decide) (by decide)
        (by decide) (by decide) (VE.cons (by decide) VE.nil)))
  obtain ⟨s2', hp⟩ := claim7_whitespace_insensitive ( "@a 1".toList) ( "@a \t\n 1".toList)
    ⟨[( "a", 1)], [], []⟩ ⟨[], 1⟩ hve (by decide)
  exact ⟨s2', hp⟩

end TGFF
